import Mathlib

/-!
Verification of the watermark-region reconstruction engine of a
watermark-remover application.  The source functions of
`src/components/ImageProcessor.tsx` are shallowly embedded below:

* pixel buffers (`ImageData.data`, a `Uint8ClampedArray`) are modelled as
  total functions `ℕ → ℕ` from flat byte index to byte value;
* JavaScript float arithmetic is modelled exactly over `ℚ` (the algorithms
  only ever combine small integers by `+ * /`, `Math.sqrt` appears solely in
  the comparison `dist < radius-1 || dist > radius+1` and in
  `1/(dist*dist)`, both of which are exact over the integers involved, so
  the `ℚ` model coincides with the float computation on the claims proved
  here);
* `Math.round` is `round` (both are `⌊x + 1/2⌋`), and a store into a
  `Uint8ClampedArray` clamps to `[0,255]` and rounds half to even.
-/

namespace WatermarkVerify

/-- Store of a (possibly fractional) value into a `Uint8ClampedArray` cell:
round half to even, then clamp to `[0,255]` (the two operations commute). -/
def roundTE (q : ℚ) : ℤ :=
  if q - ⌊q⌋ < 1/2 then ⌊q⌋
  else if 1/2 < q - ⌊q⌋ then ⌊q⌋ + 1
  else if ⌊q⌋ % 2 = 0 then ⌊q⌋ else ⌊q⌋ + 1

/-- `Uint8ClampedArray` store of a fractional value. -/
def byteOfQ (q : ℚ) : ℕ := (max 0 (min 255 (roundTE q))).toNat

/-- `Uint8ClampedArray` store of an already integral value (a `Math.round`
result): only the clamp is left. -/
def clampByte (z : ℤ) : ℕ := (max 0 (min 255 z)).toNat

/-! ### Watermark position calculation (`getWatermarkInfo`, lines 45–57) -/

/-- The object returned by `getWatermarkInfo`: `{size, x, y, width, height}`.
`x` and `y` live in `ℤ` because the source performs unclamped subtraction. -/
structure WatermarkInfo where
  size : ℕ
  x : ℤ
  y : ℤ
  width : ℕ
  height : ℕ
deriving DecidableEq

/-- `const isLarge = width > 1024 && height > 1024` (line 46). -/
def isLargeImage (width height : ℕ) : Bool := decide (1024 < width ∧ 1024 < height)

/-- `const size = isLarge ? 96 : 48` (line 47). -/
def watermarkSize (width height : ℕ) : ℕ := if isLargeImage width height then 96 else 48

/-- `const margin = isLarge ? 64 : 32` (line 48). -/
def watermarkMargin (width height : ℕ) : ℕ := if isLargeImage width height then 64 else 32

/-- `getWatermarkInfo` (lines 45–57). -/
def getWatermarkInfo (width height : ℕ) : WatermarkInfo :=
  { size := watermarkSize width height
    x := (width : ℤ) - watermarkMargin width height - watermarkSize width height
    y := (height : ℤ) - watermarkMargin width height - watermarkSize width height
    width := watermarkSize width height
    height := watermarkSize width height }

/-! ### Alpha map calculation (`calculateAlphaMap`, lines 28–37) -/

/-- Model of a `Float32Array` of opacities: its allocated length together with
the value stored at each index. -/
structure Float32ArrayM where
  size : ℕ
  get : ℕ → ℚ

/-- Model of an `ImageData`: dimensions plus the flat RGBA byte sequence. -/
structure ImageDataM where
  width : ℕ
  height : ℕ
  data : ℕ → ℕ

/-- `calculateAlphaMap` (lines 28–37): one entry per pixel, row-major,
`max(R,G,B)/255`. -/
def calculateAlphaMap (bg : ImageDataM) : Float32ArrayM :=
  { size := bg.width * bg.height
    get := fun i =>
      max ((bg.data (4*i) : ℚ)) (max ((bg.data (4*i+1) : ℚ)) ((bg.data (4*i+2) : ℚ))) / 255 }

/-! ### Reverse-blend reconstructor (spec §4.3) -/

/-- Modelled from the spec: the repository source has no Reverse-Blend
Reconstructor implementation (its "remove" path uses the alpha-map-guided
sampler instead), so §4.3's per-channel inversion is modelled from the
spec's words: skip when `α < 0.002`, clamp `α` at `0.99`, invert
`(observed − α·255)/(1−α)`, clamp the result to `[0,255]`, round to
nearest integer. -/
def reverseBlendChannel (al observed : ℚ) : ℚ :=
  if al < 1/500 then observed
  else
    let ac := min al (99/100)
    ((round (max 0 (min 255 ((observed - ac * 255) / (1 - ac)))) : ℤ) : ℚ)

/-- Modelled from the spec: §4.3 applies the inversion independently to the
three RGB channels and leaves the alpha channel unchanged. -/
def reverseBlendPixel (al : ℚ) (p : ℚ × ℚ × ℚ × ℚ) : ℚ × ℚ × ℚ × ℚ :=
  (reverseBlendChannel al p.1, reverseBlendChannel al p.2.1,
   reverseBlendChannel al p.2.2.1, p.2.2.2)

/-! ### Claims C4, C6, C3 -/

/-- Claim C4: for all image dimensions `W` and `H`, the watermark locator
returns `size = 96`, `margin = 64` iff both `W > 1024` and `H > 1024`, and
`size = 48`, `margin = 32` otherwise; the region is exactly
`x = W − margin − size`, `y = H − margin − size`, `width = height = size`,
with no clamping (the origin of an undersized image may be negative, as the
concrete instance `W = H = 10` shows, and a region is still returned). -/
theorem C4_watermark_locator (W H : ℕ) :
    ((getWatermarkInfo W H).size = 96 ∧ watermarkMargin W H = 64 ↔ 1024 < W ∧ 1024 < H)
    ∧ ((getWatermarkInfo W H).size = 48 ∧ watermarkMargin W H = 32 ↔ ¬(1024 < W ∧ 1024 < H))
    ∧ (getWatermarkInfo W H).x
        = (W : ℤ) - watermarkMargin W H - (getWatermarkInfo W H).size
    ∧ (getWatermarkInfo W H).y
        = (H : ℤ) - watermarkMargin W H - (getWatermarkInfo W H).size
    ∧ (getWatermarkInfo W H).width = (getWatermarkInfo W H).size
    ∧ (getWatermarkInfo W H).height = (getWatermarkInfo W H).size
    ∧ (getWatermarkInfo 10 10).x = -70 := by
  by_cases h1024 : 1024 < W ∧ 1024 < H <;>
    simp [getWatermarkInfo, watermarkSize, watermarkMargin, isLargeImage, h1024]

/-- Witness for C4 at the concrete dimensions 2048×2048. -/
theorem C4_watermark_locator_witness :
    (((getWatermarkInfo 2048 2048).size = 96 ∧ watermarkMargin 2048 2048 = 64
        ↔ 1024 < 2048 ∧ 1024 < 2048)
      ∧ ((getWatermarkInfo 2048 2048).size = 48 ∧ watermarkMargin 2048 2048 = 32
        ↔ ¬(1024 < 2048 ∧ 1024 < 2048))
      ∧ (getWatermarkInfo 2048 2048).x
          = (2048 : ℤ) - watermarkMargin 2048 2048 - (getWatermarkInfo 2048 2048).size
      ∧ (getWatermarkInfo 2048 2048).y
          = (2048 : ℤ) - watermarkMargin 2048 2048 - (getWatermarkInfo 2048 2048).size
      ∧ (getWatermarkInfo 2048 2048).width = (getWatermarkInfo 2048 2048).size
      ∧ (getWatermarkInfo 2048 2048).height = (getWatermarkInfo 2048 2048).size
      ∧ (getWatermarkInfo 10 10).x = -70) :=
  C4_watermark_locator 2048 2048

/-- Claim C6: the alpha map builder returns a map of length
`width × height`; the entry for pixel `i` (row-major) is
`max(R,G,B)/255` of that pixel, and since channels are bytes it lies in
`[0,1]`. -/
theorem C6_alpha_map (bg : ImageDataM) (hbytes : ∀ j, bg.data j ≤ 255)
    (i : ℕ) (_hi : i < bg.width * bg.height) :
    (calculateAlphaMap bg).size = bg.width * bg.height
    ∧ (calculateAlphaMap bg).get i
        = max ((bg.data (4*i) : ℚ)) (max ((bg.data (4*i+1) : ℚ)) ((bg.data (4*i+2) : ℚ))) / 255
    ∧ 0 ≤ (calculateAlphaMap bg).get i
    ∧ (calculateAlphaMap bg).get i ≤ 1 := by
  refine ⟨rfl, rfl, ?_, ?_⟩
  · apply div_nonneg _ (by norm_num)
    have : (0:ℚ) ≤ (bg.data (4*i) : ℚ) := by positivity
    exact le_max_of_le_left this
  · simp only [calculateAlphaMap]
    rw [div_le_one (by norm_num)]
    have h1 : (bg.data (4*i) : ℚ) ≤ 255 := by exact_mod_cast hbytes (4*i)
    have h2 : (bg.data (4*i+1) : ℚ) ≤ 255 := by exact_mod_cast hbytes (4*i+1)
    have h3 : (bg.data (4*i+2) : ℚ) ≤ 255 := by exact_mod_cast hbytes (4*i+2)
    exact max_le h1 (max_le h2 h3)

/-- Witness for C6 at a concrete 1×1 buffer. -/
theorem C6_alpha_map_witness :
    (∀ j, (ImageDataM.mk 1 1 (fun _ => 128)).data j ≤ 255)
    ∧ (0 < (ImageDataM.mk 1 1 (fun _ => 128)).width * (ImageDataM.mk 1 1 (fun _ => 128)).height)
    ∧ ((calculateAlphaMap (ImageDataM.mk 1 1 (fun _ => 128))).size = 1 * 1
        ∧ (calculateAlphaMap (ImageDataM.mk 1 1 (fun _ => 128))).get 0
            = max ((128 : ℚ)) (max ((128 : ℚ)) ((128 : ℚ))) / 255
        ∧ 0 ≤ (calculateAlphaMap (ImageDataM.mk 1 1 (fun _ => 128))).get 0
        ∧ (calculateAlphaMap (ImageDataM.mk 1 1 (fun _ => 128))).get 0 ≤ 1) :=
  ⟨fun _ => by norm_num, by norm_num,
    C6_alpha_map (ImageDataM.mk 1 1 (fun _ => 128)) (fun _ => by norm_num) 0 (by norm_num)⟩

/-- Claim C3 (spec-modelled): for every channel value `original ∈ [0,255]`
and alpha `0 ≤ α < 0.99`, the reverse-blend reconstructor applied to
`observed = α·255 + (1−α)·original` recovers `original` within `±1`, and
the pixel's alpha channel is left unchanged. -/
theorem C3_reverse_blend_roundtrip (original : ℤ) (al : ℚ)
    (h0 : 0 ≤ original) (h255 : original ≤ 255) (ha0 : 0 ≤ al) (ha : al < 99/100)
    (x1 x2 x3 x4 : ℚ) :
    |reverseBlendChannel al (al * 255 + (1 - al) * (original : ℚ)) - (original : ℚ)| ≤ 1
    ∧ (reverseBlendPixel al (x1, x2, x3, x4)).2.2.2 = x4 := by
  constructor
  · unfold reverseBlendChannel
    by_cases hsk : al < 1/500
    · rw [if_pos hsk]
      have h255q : (original : ℚ) ≤ 255 := by exact_mod_cast h255
      have h0q : (0:ℚ) ≤ (original : ℚ) := by exact_mod_cast h0
      have hval : al * 255 + (1 - al) * (original : ℚ) - (original : ℚ)
          = al * (255 - (original : ℚ)) := by ring
      rw [hval, abs_of_nonneg (by nlinarith)]
      nlinarith
    · rw [if_neg hsk]
      have hac : min al (99/100) = al := min_eq_left ha.le
      have hne : (1 : ℚ) - al ≠ 0 := by intro h; nlinarith
      have hinv : (al * 255 + (1 - al) * (original : ℚ) - al * 255) / (1 - al)
          = (original : ℚ) := by
        field_simp
      have h0q : (0:ℚ) ≤ (original : ℚ) := by exact_mod_cast h0
      have h255q : (original : ℚ) ≤ 255 := by exact_mod_cast h255
      simp only [hac, hinv]
      rw [min_eq_right h255q, max_eq_right h0q]
      rw [round_intCast]
      simp
  · rfl

/-- Witness for C3 at `original = 100`, `α = 1/2`. -/
theorem C3_reverse_blend_roundtrip_witness :
    ((0:ℤ) ≤ 100 ∧ (100:ℤ) ≤ 255 ∧ (0:ℚ) ≤ 1/2 ∧ (1/2:ℚ) < 99/100)
    ∧ (|reverseBlendChannel (1/2) ((1/2) * 255 + (1 - 1/2) * ((100:ℤ) : ℚ)) - ((100:ℤ) : ℚ)| ≤ 1
        ∧ (reverseBlendPixel (1/2) ((7:ℚ), (8:ℚ), (9:ℚ), (10:ℚ))).2.2.2 = (10:ℚ)) :=
  ⟨⟨by norm_num, by norm_num, by norm_num, by norm_num⟩,
    C3_reverse_blend_roundtrip 100 (1/2) (by norm_num) (by norm_num) (by norm_num)
      (by norm_num) 7 8 9 10⟩

/-! ### Box blur (`applyBoxBlur`, lines 195–234)

The source copies the region (`getImageData`) into a snapshot `src`, computes
every output pixel of the pass from that snapshot only, and writes the result
back (`putImageData`).  The fused model below therefore computes each pass
directly from the pass's input buffer and leaves everything outside the
region untouched.  Flat byte indices are decoded against the canvas width. -/

/-- `Math.min(Math.max(v, 0), hi)` — clamp of a region-local coordinate. -/
def clampCoord (v hi : ℤ) : ℤ := min (max v 0) hi

/-- Read of channel `c` of the canvas pixel at region-local offset
`(nx, ny)` from a region with origin `(x, y)` on a canvas of width `W`. -/
def subPixel (d : ℕ → ℕ) (x y : ℤ) (W : ℕ) (nx ny : ℤ) (c : ℕ) : ℕ :=
  d ((4 * ((y + ny) * W + (x + nx))).toNat + c)

/-- One pass of `applyBoxBlur` (lines 204–232): every region pixel becomes
the average of its `(2r+1)×(2r+1)` neighbourhood with neighbour coordinates
clamped to the region's own bounds; all four channels are averaged. -/
def blurPass (d : ℕ → ℕ) (x y : ℤ) (w h W : ℕ) (r : ℕ) : ℕ → ℕ := fun idx =>
  let p := idx / 4
  let c := idx % 4
  let X : ℤ := ((p % W : ℕ) : ℤ)
  let Y : ℤ := ((p / W : ℕ) : ℤ)
  if x ≤ X ∧ X < x + w ∧ y ≤ Y ∧ Y < y + h then
    byteOfQ ((∑ ky ∈ Finset.range (2*r+1), ∑ kx ∈ Finset.range (2*r+1),
        (subPixel d x y W (clampCoord (X - x + kx - r) ((w:ℤ) - 1))
          (clampCoord (Y - y + ky - r) ((h:ℤ) - 1)) c : ℚ))
      / ((2*r+1)^2 : ℚ))
  else d idx

/-- The pass recursion of `applyBoxBlur` (`for (let p = 0; p < passes; p++)`). -/
def applyBoxBlurGo (x y : ℤ) (w h W r : ℕ) : ℕ → (ℕ → ℕ) → (ℕ → ℕ)
  | 0, d => d
  | n+1, d => applyBoxBlurGo x y w h W r n (blurPass d x y w h W r)

/-- `applyBoxBlur` (lines 195–234): `passes` sequential passes, each with
effective kernel radius `Math.max(1, Math.floor(radius / passes))`. -/
def applyBoxBlur (d : ℕ → ℕ) (x y : ℤ) (w h W : ℕ) (radius passes : ℕ) : ℕ → ℕ :=
  applyBoxBlurGo x y w h W (max 1 (radius / passes)) passes d

/-- The `method === 'blur'` branch of `process` (lines 427–428):
`applyBoxBlur(ctx, info.x, info.y, info.width, info.height, settings.blurRadius, 4)`. -/
def processBlur (d : ℕ → ℕ) (W H : ℕ) (blurRadius : ℕ) : ℕ → ℕ :=
  let info := getWatermarkInfo W H
  applyBoxBlur d info.x info.y info.width info.height W blurRadius 4

/-! ### Solid fill (`process`, `method === 'fill'` branch, lines 429–434) -/

/-- Model of the Canvas 2D `fillRect` under `globalAlpha` with the default
source-over compositing (the repository calls this platform API at lines
430–433; the API is not repository code, so its standard semantics are
modelled: source alpha `op`, destination alpha `d/255`, premultiplied
source-over, un-premultiplied store).  At `op = 1` the model is exact: every
rect pixel becomes exactly the fill color with alpha 255. -/
def fillRect (d : ℕ → ℕ) (W : ℕ) (x y : ℤ) (w h : ℕ) (cr cg cb : ℕ) (op : ℚ) :
    ℕ → ℕ := fun idx =>
  let p := idx / 4
  let c := idx % 4
  let X : ℤ := ((p % W : ℕ) : ℤ)
  let Y : ℤ := ((p / W : ℕ) : ℤ)
  if x ≤ X ∧ X < x + w ∧ y ≤ Y ∧ Y < y + h then
    let ad : ℚ := (d (4*p+3) : ℚ) / 255
    let ao : ℚ := op + ad * (1 - op)
    if c = 3 then byteOfQ (ao * 255)
    else
      let cs : ℚ := if c = 0 then (cr : ℚ) else if c = 1 then (cg : ℚ) else (cb : ℚ)
      if ao = 0 then 0
      else byteOfQ ((cs * op + (d idx : ℚ) * ad * (1 - op)) / ao)
  else d idx

/-- The `method === 'fill'` branch of `process` (lines 429–434): fill the
located watermark rect with the cover color at `settings.opacity`. -/
def processFill (d : ℕ → ℕ) (W H : ℕ) (cr cg cb : ℕ) (op : ℚ) : ℕ → ℕ :=
  let info := getWatermarkInfo W H
  fillRect d W info.x info.y info.width info.height cr cg cb op

/-! ### Index decoding helpers -/

theorem decode4 (W aX aY c : ℕ) (hW : 0 < W) (hx : aX < W) (hc : c < 4) :
    (4*(aY*W+aX)+c) / 4 = aY*W+aX ∧ (4*(aY*W+aX)+c) % 4 = c
    ∧ (aY*W+aX) % W = aX ∧ (aY*W+aX) / W = aY := by
  refine ⟨by omega, by omega, ?_, ?_⟩
  · rw [Nat.mul_comm aY W, Nat.mul_add_mod]
    exact Nat.mod_eq_of_lt hx
  · rw [Nat.mul_comm aY W, Nat.mul_add_div hW]
    rw [Nat.div_eq_of_lt hx]
    omega

theorem toNatIdx (x y : ℤ) (W : ℕ) (nx ny : ℤ) (c : ℕ)
    (hx : 0 ≤ x + nx) (hy : 0 ≤ y + ny) :
    (4 * ((y + ny) * W + (x + nx))).toNat + c
      = 4 * ((y+ny).toNat * W + (x+nx).toNat) + c := by
  have h1 : ((y+ny).toNat : ℤ) = y + ny := Int.toNat_of_nonneg hy
  have h2 : ((x+nx).toNat : ℤ) = x + nx := Int.toNat_of_nonneg hx
  have key : (4 * ((y + ny) * W + (x + nx)))
      = ((4 * ((y+ny).toNat * W + (x+nx).toNat) : ℕ) : ℤ) := by
    push_cast
    rw [h1, h2]
  rw [key, Int.toNat_natCast]

theorem byteOfQ_natCast (n : ℕ) (h : n ≤ 255) : byteOfQ (n : ℚ) = n := by
  unfold byteOfQ roundTE
  rw [Int.floor_natCast]
  norm_num
  omega

/-! ### Frame properties of the box blur -/

/-- Two buffers agree on every byte of the region `(x, y, w, h)` of a canvas
of width `W`. -/
def RegionAgree (d1 d2 : ℕ → ℕ) (x y : ℤ) (w h W : ℕ) : Prop :=
  ∀ aX aY c : ℕ, c < 4 → x ≤ (aX:ℤ) → (aX:ℤ) < x + w → y ≤ (aY:ℤ) → (aY:ℤ) < y + h →
    d1 (4*(aY*W+aX)+c) = d2 (4*(aY*W+aX)+c)

theorem blurPass_outside (d : ℕ → ℕ) (x y : ℤ) (w h W r : ℕ) (px py c : ℕ)
    (hW : 0 < W) (hpx : px < W) (hc : c < 4)
    (hout : ¬(x ≤ (px:ℤ) ∧ (px:ℤ) < x + w ∧ y ≤ (py:ℤ) ∧ (py:ℤ) < y + h)) :
    blurPass d x y w h W r (4*(py*W+px)+c) = d (4*(py*W+px)+c) := by
  obtain ⟨h1, _h2, h3, h4⟩ := decode4 W px py c hW hpx hc
  simp only [blurPass, h1, h3, h4]
  rw [if_neg hout]

theorem applyBoxBlurGo_outside (x y : ℤ) (w h W r : ℕ) (px py c : ℕ)
    (hW : 0 < W) (hpx : px < W) (hc : c < 4)
    (hout : ¬(x ≤ (px:ℤ) ∧ (px:ℤ) < x + w ∧ y ≤ (py:ℤ) ∧ (py:ℤ) < y + h)) :
    ∀ (n : ℕ) (d : ℕ → ℕ),
      applyBoxBlurGo x y w h W r n d (4*(py*W+px)+c) = d (4*(py*W+px)+c) := by
  intro n
  induction n with
  | zero => intro d; rfl
  | succ k ih =>
    intro d
    show applyBoxBlurGo x y w h W r k (blurPass d x y w h W r) (4*(py*W+px)+c) = _
    rw [ih (blurPass d x y w h W r)]
    exact blurPass_outside d x y w h W r px py c hW hpx hc hout

theorem blurPass_agree (d1 d2 : ℕ → ℕ) (x y : ℤ) (w h W r : ℕ)
    (hW : 0 < W) (hx0 : 0 ≤ x) (hy0 : 0 ≤ y) (hxw : x + w ≤ (W:ℤ))
    (hA : RegionAgree d1 d2 x y w h W) :
    RegionAgree (blurPass d1 x y w h W r) (blurPass d2 x y w h W r) x y w h W := by
  intro aX aY c hc hx1 hx2 hy1 hy2
  have hpx : aX < W := by omega
  obtain ⟨h1, h2, h3, h4⟩ := decode4 W aX aY c hW hpx hc
  simp only [blurPass, h1, h2, h3, h4]
  rw [if_pos ⟨hx1, hx2, hy1, hy2⟩, if_pos ⟨hx1, hx2, hy1, hy2⟩]
  have hw1 : 1 ≤ w := by omega
  have hh1 : 1 ≤ h := by omega
  congr 1
  congr 1
  apply Finset.sum_congr rfl
  intro ky _hky
  apply Finset.sum_congr rfl
  intro kx _hkx
  congr 1
  unfold subPixel
  set cx := clampCoord ((aX:ℤ) - x + kx - r) ((w:ℤ) - 1) with hcxdef
  set cy := clampCoord ((aY:ℤ) - y + ky - r) ((h:ℤ) - 1) with hcydef
  have hcx0 : 0 ≤ cx := by rw [hcxdef]; unfold clampCoord; omega
  have hcxw : cx ≤ (w:ℤ) - 1 := by rw [hcxdef]; unfold clampCoord; omega
  have hcy0 : 0 ≤ cy := by rw [hcydef]; unfold clampCoord; omega
  have hcyh : cy ≤ (h:ℤ) - 1 := by rw [hcydef]; unfold clampCoord; omega
  rw [toNatIdx x y W cx cy c (by omega) (by omega)]
  apply hA _ _ _ hc <;> omega

theorem applyBoxBlurGo_agree (x y : ℤ) (w h W r : ℕ)
    (hW : 0 < W) (hx0 : 0 ≤ x) (hy0 : 0 ≤ y) (hxw : x + w ≤ (W:ℤ)) :
    ∀ (n : ℕ) (d1 d2 : ℕ → ℕ), RegionAgree d1 d2 x y w h W →
      RegionAgree (applyBoxBlurGo x y w h W r n d1) (applyBoxBlurGo x y w h W r n d2)
        x y w h W := by
  intro n
  induction n with
  | zero => intro d1 d2 hA; exact hA
  | succ k ih =>
    intro d1 d2 hA
    exact ih _ _ (blurPass_agree d1 d2 x y w h W r hW hx0 hy0 hxw hA)

/-- Claim C7: the box blur neither modifies nor reads any pixel outside the
region: (i) every byte outside the region is returned unchanged, (ii) on
region bytes the output is a function of the region bytes of the input
alone (two inputs agreeing on the region yield outputs agreeing on the
region), and (iii) end to end, a 500×500 image processed with
`method="blur"`, `blurRadius=20` changes no byte outside the 48×48 region
at (420, 420). -/
theorem C7_box_blur_frame (d d1 d2 : ℕ → ℕ) (x y : ℤ) (w h W radius passes : ℕ)
    (px py c : ℕ) (hW : 0 < W) (hpx : px < W) (hc : c < 4)
    (hx0 : 0 ≤ x) (hy0 : 0 ≤ y) (hxw : x + w ≤ (W:ℤ))
    (hA : RegionAgree d1 d2 x y w h W) :
    (¬(x ≤ (px:ℤ) ∧ (px:ℤ) < x + w ∧ y ≤ (py:ℤ) ∧ (py:ℤ) < y + h) →
        applyBoxBlur d x y w h W radius passes (4*(py*W+px)+c) = d (4*(py*W+px)+c))
    ∧ RegionAgree (applyBoxBlur d1 x y w h W radius passes)
        (applyBoxBlur d2 x y w h W radius passes) x y w h W
    ∧ (∀ qx qy qc : ℕ, qx < 500 → qy < 500 → qc < 4 →
        ¬(420 ≤ qx ∧ qx < 468 ∧ 420 ≤ qy ∧ qy < 468) →
        processBlur d 500 500 20 (4*(qy*500+qx)+qc) = d (4*(qy*500+qx)+qc)) := by
  refine ⟨?_, ?_, ?_⟩
  · intro hout
    exact applyBoxBlurGo_outside x y w h W _ px py c hW hpx hc hout passes d
  · exact applyBoxBlurGo_agree x y w h W _ hW hx0 hy0 hxw passes d1 d2 hA
  · intro qx qy qc hqx hqy hqc hqout
    have hinfo : getWatermarkInfo 500 500
        = { size := 48, x := 420, y := 420, width := 48, height := 48 } := by
      simp [getWatermarkInfo, watermarkSize, watermarkMargin, isLargeImage]
    show applyBoxBlur d (getWatermarkInfo 500 500).x (getWatermarkInfo 500 500).y
        (getWatermarkInfo 500 500).width (getWatermarkInfo 500 500).height
        500 20 4 (4*(qy*500+qx)+qc) = d (4*(qy*500+qx)+qc)
    rw [hinfo]
    apply applyBoxBlurGo_outside 420 420 48 48 500 _ qx qy qc (by norm_num) hqx hqc
    push_cast
    omega

/-- Witness for C7 at a concrete configuration. -/
theorem C7_box_blur_frame_witness :
    (¬((420:ℤ) ≤ ((0:ℕ):ℤ) ∧ ((0:ℕ):ℤ) < 420 + (48:ℕ) ∧ (420:ℤ) ≤ ((0:ℕ):ℤ)
          ∧ ((0:ℕ):ℤ) < 420 + (48:ℕ)) →
        applyBoxBlur (fun _ => 7) 420 420 48 48 500 20 4 (4*(0*500+0)+0)
          = (fun _ => (7:ℕ)) (4*(0*500+0)+0))
    ∧ RegionAgree (applyBoxBlur (fun _ => 1) 420 420 48 48 500 20 4)
        (applyBoxBlur (fun _ => 1) 420 420 48 48 500 20 4) 420 420 48 48 500
    ∧ (∀ qx qy qc : ℕ, qx < 500 → qy < 500 → qc < 4 →
        ¬(420 ≤ qx ∧ qx < 468 ∧ 420 ≤ qy ∧ qy < 468) →
        processBlur (fun _ => 7) 500 500 20 (4*(qy*500+qx)+qc)
          = (fun _ => (7:ℕ)) (4*(qy*500+qx)+qc)) :=
  C7_box_blur_frame (fun _ => 7) (fun _ => 1) (fun _ => 1) 420 420 48 48 500 20 4
    0 0 0 (by norm_num) (by norm_num) (by norm_num) (by norm_num) (by norm_num)
    (by norm_num) (fun _ _ _ _ _ _ _ _ => rfl)

theorem byteOfQ_ofNat (n : ℕ) (h : n ≤ 255) : byteOfQ (OfNat.ofNat n : ℚ) = n := by
  have := byteOfQ_natCast n h
  simpa using this

/-- Claim C8: at `opacity = 1.0` the solid fill makes every pixel of the
region exactly the cover color (no blending residue) with alpha 255, and,
end to end, a 2048×2048 all-white image processed with `method="fill"`,
black cover color and opacity 1 yields a 96×96 all-black square at
(1888, 1888) with every byte outside that square unchanged. -/
theorem C8_solid_fill (d : ℕ → ℕ) (W : ℕ) (x y : ℤ) (w h cr cg cb : ℕ)
    (aX aY c : ℕ) (hW : 0 < W) (hpx : aX < W) (hc : c < 4)
    (hx1 : x ≤ (aX:ℤ)) (hx2 : (aX:ℤ) < x + w) (hy1 : y ≤ (aY:ℤ)) (hy2 : (aY:ℤ) < y + h)
    (hcr : cr ≤ 255) (hcg : cg ≤ 255) (hcb : cb ≤ 255) :
    ((c = 0 → fillRect d W x y w h cr cg cb 1 (4*(aY*W+aX)+c) = cr)
      ∧ (c = 1 → fillRect d W x y w h cr cg cb 1 (4*(aY*W+aX)+c) = cg)
      ∧ (c = 2 → fillRect d W x y w h cr cg cb 1 (4*(aY*W+aX)+c) = cb)
      ∧ (c = 3 → fillRect d W x y w h cr cg cb 1 (4*(aY*W+aX)+c) = 255))
    ∧ (∀ qx qy qc : ℕ, qx < 2048 → qy < 2048 → qc < 4 →
        processFill (fun _ => 255) 2048 2048 0 0 0 1 (4*(qy*2048+qx)+qc)
          = if 1888 ≤ qx ∧ qx < 1984 ∧ 1888 ≤ qy ∧ qy < 1984 ∧ qc < 3
            then 0 else 255) := by
  constructor
  · obtain ⟨e1, e2, e3, e4⟩ := decode4 W aX aY c hW hpx hc
    refine ⟨?_, ?_, ?_, ?_⟩ <;> intro hcv <;> subst hcv <;>
      simp only [fillRect, e1, e2, e3, e4] <;>
      rw [if_pos ⟨hx1, hx2, hy1, hy2⟩] <;> norm_num
    · exact byteOfQ_natCast cr hcr
    · exact byteOfQ_natCast cg hcg
    · exact byteOfQ_natCast cb hcb
    · exact byteOfQ_ofNat 255 (by norm_num)
  · intro qx qy qc hqx hqy hqc
    have hinfo : getWatermarkInfo 2048 2048
        = { size := 96, x := 1888, y := 1888, width := 96, height := 96 } := by
      simp [getWatermarkInfo, watermarkSize, watermarkMargin, isLargeImage]
    show fillRect (fun _ => 255) 2048 (getWatermarkInfo 2048 2048).x
        (getWatermarkInfo 2048 2048).y (getWatermarkInfo 2048 2048).width
        (getWatermarkInfo 2048 2048).height 0 0 0 1 (4*(qy*2048+qx)+qc) = _
    rw [hinfo]
    obtain ⟨e1, e2, e3, e4⟩ := decode4 2048 qx qy qc (by norm_num) hqx hqc
    simp only [fillRect, e1, e2, e3, e4]
    by_cases hin : 1888 ≤ qx ∧ qx < 1984 ∧ 1888 ≤ qy ∧ qy < 1984
    · rw [if_pos (by push_cast; omega)]
      interval_cases qc <;>
        simp [hin.1, hin.2.1, hin.2.2.1, hin.2.2.2] <;> norm_num <;>
        first
          | exact byteOfQ_ofNat 0 (by norm_num)
          | exact byteOfQ_ofNat 255 (by norm_num)
    · rw [if_neg (by push_cast; omega), if_neg (by omega)]

/-- Witness for C8 at a concrete region pixel. -/
theorem C8_solid_fill_witness :
    (((0:ℕ) = 0 → fillRect (fun _ => 9) 10 2 2 3 3 5 6 7 1 (4*(2*10+2)+0) = 5)
      ∧ ((0:ℕ) = 1 → fillRect (fun _ => 9) 10 2 2 3 3 5 6 7 1 (4*(2*10+2)+0) = 6)
      ∧ ((0:ℕ) = 2 → fillRect (fun _ => 9) 10 2 2 3 3 5 6 7 1 (4*(2*10+2)+0) = 7)
      ∧ ((0:ℕ) = 3 → fillRect (fun _ => 9) 10 2 2 3 3 5 6 7 1 (4*(2*10+2)+0) = 255))
    ∧ (∀ qx qy qc : ℕ, qx < 2048 → qy < 2048 → qc < 4 →
        processFill (fun _ => 255) 2048 2048 0 0 0 1 (4*(qy*2048+qx)+qc)
          = if 1888 ≤ qx ∧ qx < 1984 ∧ 1888 ≤ qy ∧ qy < 1984 ∧ qc < 3
            then 0 else 255) :=
  C8_solid_fill (fun _ => 9) 10 2 2 3 3 5 6 7 2 2 0 (by norm_num) (by norm_num)
    (by norm_num) (by norm_num) (by norm_num) (by norm_num) (by norm_num)
    (by norm_num) (by norm_num) (by norm_num)

/-! ### Smart inpaint (`applyInpaint`, lines 237–288) -/

/-- `Math.max(10, Math.floor(Math.min(w, h) * 0.2))` (line 246); for the
integer inputs of this program `Math.floor(n * 0.2) = n / 5` exactly. -/
def borderSizeOf (w h : ℕ) : ℕ := max 10 (min w h / 5)

/-- The values visited by a loop `for (let v = a; v < b; v += 2)`. -/
def stepRange2 (a b : ℤ) : List ℤ :=
  (List.range (((b - a).toNat + 1) / 2)).map (fun k => a + 2 * k)

/-- The border coordinates visited by the two sampling loop nests of
`applyInpaint` (lines 257–264), in source order: top and bottom strips per
column, then left and right strips per row. -/
def borderCoords (x y : ℤ) (w h bs : ℕ) : List (ℤ × ℤ) :=
  (stepRange2 (x - bs) (x + w + bs)).flatMap
    (fun bx => (stepRange2 (y - bs) y).map (fun v => (bx, v))
      ++ (stepRange2 (y + h) (y + h + bs)).map (fun v => (bx, v)))
  ++ (stepRange2 y (y + h)).flatMap
    (fun v => (stepRange2 (x - bs) x).map (fun bx => (bx, v))
      ++ (stepRange2 (x + w) (x + w + bs)).map (fun bx => (bx, v)))

/-- `sampleAt` (lines 250–255): a coordinate contributes an RGBA sample iff
it lies inside the canvas. -/
def borderPixels (d : ℕ → ℕ) (W H : ℕ) (x y : ℤ) (w h : ℕ) :
    List (ℕ × ℕ × ℕ × ℕ) :=
  (borderCoords x y w h (borderSizeOf w h)).filterMap (fun q =>
    if 0 ≤ q.1 ∧ q.1 < (W:ℤ) ∧ 0 ≤ q.2 ∧ q.2 < (H:ℤ) then
      some (d ((4 * (q.2 * (W:ℤ) + q.1)).toNat),
            d ((4 * (q.2 * (W:ℤ) + q.1)).toNat + 1),
            d ((4 * (q.2 * (W:ℤ) + q.1)).toNat + 2),
            d ((4 * (q.2 * (W:ℤ) + q.1)).toNat + 3))
    else none)

/-- The mean RGBA of the collected border samples (lines 268–270). -/
def avgOf (l : List (ℕ × ℕ × ℕ × ℕ)) : ℚ × ℚ × ℚ × ℚ :=
  (((l.map (fun q => (q.1 : ℚ))).sum) / l.length,
   ((l.map (fun q => (q.2.1 : ℚ))).sum) / l.length,
   ((l.map (fun q => (q.2.2.1 : ℚ))).sum) / l.length,
   ((l.map (fun q => (q.2.2.2 : ℚ))).sum) / l.length)

/-- `Math.min(px, w - px, py, h - py) / (Math.min(w, h) * 0.5)` (line 278). -/
def edgeFactorOf (w h px py : ℕ) : ℚ :=
  min (min (px:ℚ) ((w:ℚ) - px)) (min (py:ℚ) ((h:ℚ) - py)) / ((min w h : ℕ) / 2)

/-- The fill loop of `applyInpaint` (lines 272–286): every region pixel's
RGB becomes the border mean plus `(rand − 0.5)·12·min(edgeFactor, 1)`
clamped to `[0,255]`; the alpha byte is set to 255.  `rand` is the
injectable noise source standing for the per-pixel `Math.random()` draw. -/
def inpaintFill (d : ℕ → ℕ) (W : ℕ) (x y : ℤ) (w h : ℕ) (avg : ℚ × ℚ × ℚ × ℚ)
    (rand : ℕ → ℚ) : ℕ → ℕ := fun idx =>
  let p := idx / 4
  let c := idx % 4
  let X : ℤ := ((p % W : ℕ) : ℤ)
  let Y : ℤ := ((p / W : ℕ) : ℤ)
  if x ≤ X ∧ X < x + w ∧ y ≤ Y ∧ Y < y + h then
    let px : ℕ := (X - x).toNat
    let py : ℕ := (Y - y).toNat
    let noise : ℚ := (rand (py * w + px) - 1/2) * 12 * min (edgeFactorOf w h px py) 1
    if c = 3 then 255
    else if c = 0 then byteOfQ (min 255 (max 0 (avg.1 + noise)))
    else if c = 1 then byteOfQ (min 255 (max 0 (avg.2.1 + noise)))
    else byteOfQ (min 255 (max 0 (avg.2.2.1 + noise)))
  else d idx

/-- `applyInpaint` (lines 237–288): sample the border ring; if no sample was
collected return the buffer unchanged, otherwise fill the region with the
perturbed mean and run a radius-5 2-pass box blur over the region. -/
def applyInpaint (d : ℕ → ℕ) (W H : ℕ) (x y : ℤ) (w h : ℕ) (rand : ℕ → ℚ) :
    ℕ → ℕ :=
  let bps := borderPixels d W H x y w h
  if bps = [] then d
  else applyBoxBlur (inpaintFill d W x y w h (avgOf bps) rand) x y w h W 5 2

/-- Claim C9: when the border-sampling inpainter collects zero border
samples it is a no-op — the buffer is returned byte-for-byte unchanged; no
fill, no noise and no follow-up blur happens. -/
theorem C9_inpaint_empty_noop (d : ℕ → ℕ) (W H : ℕ) (x y : ℤ) (w h : ℕ)
    (rand : ℕ → ℚ) (hempty : borderPixels d W H x y w h = []) (idx : ℕ) :
    applyInpaint d W H x y w h rand idx = d idx := by
  unfold applyInpaint
  simp [hempty]

/-- Witness for C9: a 4×4 region fully outside a 2×2 canvas collects no
samples, and the inpainter leaves the buffer unchanged. -/
theorem C9_inpaint_empty_noop_witness :
    borderPixels (fun _ => 33) 2 2 100 100 4 4 = []
    ∧ applyInpaint (fun _ => 33) 2 2 100 100 4 4 (fun _ => 0) 5 = 33 :=
  ⟨by decide,
    C9_inpaint_empty_noop (fun _ => 33) 2 2 100 100 4 4 (fun _ => 0) (by decide) 5⟩

theorem sum_map_const_of_all {α : Type} (l : List α) (f : α → ℚ) (v : ℚ)
    (hall : ∀ q ∈ l, f q = v) : (l.map f).sum = l.length * v := by
  induction l with
  | nil => simp
  | cons a t ih =>
    simp only [List.map_cons, List.sum_cons, List.length_cons]
    rw [hall a (by simp), ih (fun q hq => hall q (by simp [hq]))]
    push_cast
    ring

theorem avgOf_const (l : List (ℕ × ℕ × ℕ × ℕ)) (v : ℕ × ℕ × ℕ × ℕ)
    (hne : l ≠ []) (hall : ∀ q ∈ l, q = v) :
    avgOf l = ((v.1 : ℚ), (v.2.1 : ℚ), (v.2.2.1 : ℚ), (v.2.2.2 : ℚ)) := by
  have hlen : (l.length : ℚ) ≠ 0 := by
    have : 0 < l.length := List.length_pos.mpr hne
    positivity
  unfold avgOf
  rw [sum_map_const_of_all l _ ((v.1 : ℕ) : ℚ) (fun q hq => by rw [hall q hq]),
    sum_map_const_of_all l _ ((v.2.1 : ℕ) : ℚ) (fun q hq => by rw [hall q hq]),
    sum_map_const_of_all l _ ((v.2.2.1 : ℕ) : ℚ) (fun q hq => by rw [hall q hq]),
    sum_map_const_of_all l _ ((v.2.2.2 : ℕ) : ℚ) (fun q hq => by rw [hall q hq])]
  field_simp

theorem borderPixels_const (cst : ℕ) (W H : ℕ) (x y : ℤ) (w h : ℕ) :
    ∀ q ∈ borderPixels (fun _ => cst) W H x y w h, q = (cst, cst, cst, cst) := by
  intro q hq
  unfold borderPixels at hq
  rw [List.mem_filterMap] at hq
  obtain ⟨a, _ha, hsome⟩ := hq
  by_cases hcond : 0 ≤ a.1 ∧ a.1 < (W:ℤ) ∧ 0 ≤ a.2 ∧ a.2 < (H:ℤ)
  · rw [if_pos hcond] at hsome
    exact (Option.some_inj.mp hsome).symm
  · rw [if_neg hcond] at hsome
    exact absurd hsome (by simp)

/-- Counterexample to claim C2 as stated: the claim (and spec §4.5) say the
noise fades to nothing as `min(edge distances)/(half min(w,h))` approaches 1
(the region's center) and is strongest near the boundary.  In the code the
factor multiplying the noise is `min(edgeFactor, 1)` itself, so on a 2×2
region of a constant-100 12×12 canvas with noise source `rand ≡ 0.9` the
center pixel (edge ratio exactly 1) is stored as `105 ≠ 100` (perturbation
4.8, not 0), while the boundary pixel (edge ratio 0) is stored as the exact
mean 100 (perturbation 0): the attenuation runs in the opposite direction
to the claim. -/
theorem C2_inpaint_noise_counterexample :
    edgeFactorOf 2 2 1 1 = 1
    ∧ inpaintFill (fun _ => 100) 12 5 5 2 2
        (avgOf (borderPixels (fun _ => 100) 12 12 5 5 2 2)) (fun _ => 9/10)
        (4*(6*12+6)+0) = 105
    ∧ byteOfQ ((avgOf (borderPixels (fun _ => 100) 12 12 5 5 2 2)).1) = 100
    ∧ edgeFactorOf 2 2 0 0 = 0
    ∧ inpaintFill (fun _ => 100) 12 5 5 2 2
        (avgOf (borderPixels (fun _ => 100) 12 12 5 5 2 2)) (fun _ => 9/10)
        (4*(5*12+5)+0) = 100 := by
  have hne : borderPixels (fun _ => (100:ℕ)) 12 12 5 5 2 2 ≠ [] := by decide
  have havg : avgOf (borderPixels (fun _ => 100) 12 12 5 5 2 2)
      = ((100:ℚ), (100:ℚ), (100:ℚ), (100:ℚ)) := by
    have := avgOf_const _ (100, 100, 100, 100) hne (borderPixels_const 100 12 12 5 5 2 2)
    simpa using this
  refine ⟨?_, ?_, ?_, ?_, ?_⟩
  · norm_num [edgeFactorOf]
  · rw [havg]
    norm_num [inpaintFill, edgeFactorOf, byteOfQ, roundTE]
    rfl
  · rw [havg]
    norm_num [byteOfQ, roundTE]
    rfl
  · norm_num [edgeFactorOf]
  · rw [havg]
    norm_num [inpaintFill, edgeFactorOf, byteOfQ, roundTE]
    rfl

/-- Claim C2 as amended: every filled pixel's RGB is the border-sample mean
plus a perturbation `(rand − 0.5)·12·min(edgeFactor, 1)` of amplitude at
most ±6 per channel, clamped to `[0,255]`, with the alpha byte forced to
255 — but the perturbation is zero at the region's boundary (edge factor 0)
and grows toward the region's center, proportionally to
`min(min(px, w−px, py, h−py)/(min(w,h)/2), 1)`, the opposite attenuation
direction to the one claimed. -/
theorem C2_inpaint_noise_amended (d : ℕ → ℕ) (W H : ℕ) (x y w h : ℕ)
    (rand : ℕ → ℚ) (px py c : ℕ)
    (hW : 0 < W) (hpx : px < w) (hpy : py < h) (hxw : x + w ≤ W) (hc : c < 4)
    (hrand : ∀ i, 0 ≤ rand i ∧ rand i < 1) :
    ((c = 0 → inpaintFill d W (x:ℤ) (y:ℤ) w h
          (avgOf (borderPixels d W H (x:ℤ) (y:ℤ) w h)) rand (4*((y+py)*W+(x+px))+c)
        = byteOfQ (min 255 (max 0 ((avgOf (borderPixels d W H (x:ℤ) (y:ℤ) w h)).1
            + (rand (py*w+px) - 1/2) * 12 * min (edgeFactorOf w h px py) 1))))
      ∧ (c = 1 → inpaintFill d W (x:ℤ) (y:ℤ) w h
          (avgOf (borderPixels d W H (x:ℤ) (y:ℤ) w h)) rand (4*((y+py)*W+(x+px))+c)
        = byteOfQ (min 255 (max 0 ((avgOf (borderPixels d W H (x:ℤ) (y:ℤ) w h)).2.1
            + (rand (py*w+px) - 1/2) * 12 * min (edgeFactorOf w h px py) 1))))
      ∧ (c = 2 → inpaintFill d W (x:ℤ) (y:ℤ) w h
          (avgOf (borderPixels d W H (x:ℤ) (y:ℤ) w h)) rand (4*((y+py)*W+(x+px))+c)
        = byteOfQ (min 255 (max 0 ((avgOf (borderPixels d W H (x:ℤ) (y:ℤ) w h)).2.2.1
            + (rand (py*w+px) - 1/2) * 12 * min (edgeFactorOf w h px py) 1))))
      ∧ (c = 3 → inpaintFill d W (x:ℤ) (y:ℤ) w h
          (avgOf (borderPixels d W H (x:ℤ) (y:ℤ) w h)) rand (4*((y+py)*W+(x+px))+c)
        = 255))
    ∧ |(rand (py*w+px) - 1/2) * 12 * min (edgeFactorOf w h px py) 1| ≤ 6
    ∧ (min (min (px:ℚ) ((w:ℚ) - px)) (min (py:ℚ) ((h:ℚ) - py)) = 0 →
        (rand (py*w+px) - 1/2) * 12 * min (edgeFactorOf w h px py) 1 = 0) := by
  have hpxW : x + px < W := by omega
  obtain ⟨e1, e2, e3, e4⟩ := decode4 W (x+px) (y+py) c hW hpxW hc
  have hX : ((((x+px : ℕ) : ℤ)) - (x:ℤ)).toNat = px := by omega
  have hY : ((((y+py : ℕ) : ℤ)) - (y:ℤ)).toNat = py := by omega
  have hin : (x:ℤ) ≤ ((x+px : ℕ) : ℤ) ∧ ((x+px : ℕ) : ℤ) < (x:ℤ) + w
      ∧ (y:ℤ) ≤ ((y+py : ℕ) : ℤ) ∧ ((y+py : ℕ) : ℤ) < (y:ℤ) + h := by
    refine ⟨?_, ?_, ?_, ?_⟩ <;> push_cast <;> omega
  have hef0 : 0 ≤ edgeFactorOf w h px py := by
    unfold edgeFactorOf
    apply div_nonneg
    · have hw : (px:ℚ) ≤ w := by exact_mod_cast hpx.le
      have hh : (py:ℚ) ≤ h := by exact_mod_cast hpy.le
      exact le_min (le_min (by positivity) (by linarith)) (le_min (by positivity) (by linarith))
    · positivity
  have hmin01 : 0 ≤ min (edgeFactorOf w h px py) 1
      ∧ min (edgeFactorOf w h px py) 1 ≤ 1 :=
    ⟨le_min hef0 zero_le_one, min_le_right _ _⟩
  refine ⟨⟨?_, ?_, ?_, ?_⟩, ?_, ?_⟩
  · intro hcv; subst hcv
    simp only [inpaintFill, e1, e2, e3, e4, hX, hY]
    rw [if_pos hin]
    simp
  · intro hcv; subst hcv
    simp only [inpaintFill, e1, e2, e3, e4, hX, hY]
    rw [if_pos hin]
    simp
  · intro hcv; subst hcv
    simp only [inpaintFill, e1, e2, e3, e4, hX, hY]
    rw [if_pos hin]
    simp
  · intro hcv; subst hcv
    simp only [inpaintFill, e1, e2, e3, e4, hX, hY]
    rw [if_pos hin]
    simp
  · obtain ⟨hr0, hr1⟩ := hrand (py*w+px)
    rw [abs_mul, abs_mul]
    have habs : |rand (py*w+px) - 1/2| ≤ 1/2 := abs_le.mpr ⟨by linarith, by linarith⟩
    have habs12 : |(12:ℚ)| = 12 := by norm_num
    rw [habs12, abs_of_nonneg hmin01.1]
    nlinarith [abs_nonneg (rand (py*w+px) - 1/2), hmin01.1, hmin01.2, habs]
  · intro hmin0
    unfold edgeFactorOf
    rw [hmin0]
    simp

/-- Witness for the amended C2 at a concrete configuration. -/
theorem C2_inpaint_noise_amended_witness :
    (((0:ℕ) = 0 → inpaintFill (fun _ => 100) 12 ((5:ℕ):ℤ) ((5:ℕ):ℤ) 2 2
          (avgOf (borderPixels (fun _ => 100) 12 12 ((5:ℕ):ℤ) ((5:ℕ):ℤ) 2 2))
          (fun _ => 9/10) (4*((5+1)*12+(5+1))+0)
        = byteOfQ (min 255 (max 0
            ((avgOf (borderPixels (fun _ => 100) 12 12 ((5:ℕ):ℤ) ((5:ℕ):ℤ) 2 2)).1
              + ((9/10 : ℚ) - 1/2) * 12
                * min (edgeFactorOf 2 2 1 1) 1))))
      ∧ ((0:ℕ) = 1 → inpaintFill (fun _ => 100) 12 ((5:ℕ):ℤ) ((5:ℕ):ℤ) 2 2
          (avgOf (borderPixels (fun _ => 100) 12 12 ((5:ℕ):ℤ) ((5:ℕ):ℤ) 2 2))
          (fun _ => 9/10) (4*((5+1)*12+(5+1))+0)
        = byteOfQ (min 255 (max 0
            ((avgOf (borderPixels (fun _ => 100) 12 12 ((5:ℕ):ℤ) ((5:ℕ):ℤ) 2 2)).2.1
              + ((9/10 : ℚ) - 1/2) * 12
                * min (edgeFactorOf 2 2 1 1) 1))))
      ∧ ((0:ℕ) = 2 → inpaintFill (fun _ => 100) 12 ((5:ℕ):ℤ) ((5:ℕ):ℤ) 2 2
          (avgOf (borderPixels (fun _ => 100) 12 12 ((5:ℕ):ℤ) ((5:ℕ):ℤ) 2 2))
          (fun _ => 9/10) (4*((5+1)*12+(5+1))+0)
        = byteOfQ (min 255 (max 0
            ((avgOf (borderPixels (fun _ => 100) 12 12 ((5:ℕ):ℤ) ((5:ℕ):ℤ) 2 2)).2.2.1
              + ((9/10 : ℚ) - 1/2) * 12
                * min (edgeFactorOf 2 2 1 1) 1))))
      ∧ ((0:ℕ) = 3 → inpaintFill (fun _ => 100) 12 ((5:ℕ):ℤ) ((5:ℕ):ℤ) 2 2
          (avgOf (borderPixels (fun _ => 100) 12 12 ((5:ℕ):ℤ) ((5:ℕ):ℤ) 2 2))
          (fun _ => 9/10) (4*((5+1)*12+(5+1))+0)
        = 255))
    ∧ |((9/10 : ℚ) - 1/2) * 12 * min (edgeFactorOf 2 2 1 1) 1| ≤ 6
    ∧ (min (min ((1:ℕ):ℚ) (((2:ℕ):ℚ) - (1:ℕ))) (min ((1:ℕ):ℚ) (((2:ℕ):ℚ) - (1:ℕ))) = 0 →
        ((9/10 : ℚ) - 1/2) * 12 * min (edgeFactorOf 2 2 1 1) 1 = 0) :=
  C2_inpaint_noise_amended (fun _ => 100) 12 12 5 5 2 2 (fun _ => 9/10) 1 1 0
    (by norm_num) (by norm_num) (by norm_num) (by norm_num) (by norm_num)
    (fun _ => ⟨by norm_num, by norm_num⟩)

/-! ### Alpha-map-guided reconstruction (`removeWatermarkWithAlphaMap`,
lines 299–376)

The function iterates over the region's pixels in row-major order, and for
each masked pixel accumulates distance-weighted samples while writing
results back into the same buffer; the embedding threads the mutated buffer
through a fold exactly as the source does.  Region placement is modelled
in-bounds (`ox + w ≤ W`, `oy + h ≤ H` in the theorems), per the data
model's Region invariant. -/

/-- `ALPHA_THRESHOLD = 0.05` and the mask build of lines 313–320: region
pixel `i` (row-major) is masked iff its alpha-map value exceeds 0.05. -/
def maskOf (A : ℕ → ℚ) : ℕ → Bool := fun i => decide (1/20 < A i)

/-- `SEARCH_RADIUS = Math.max(w, h) + 8` (line 308). -/
def searchRadius (w h : ℕ) : ℕ := max w h + 8

/-- `const step = Math.max(1, Math.floor(radius / 2))` (line 332). -/
def ringStep (radius : ℕ) : ℕ := max 1 (radius / 2)

/-- The values visited by `for (let dv = -radius; dv <= radius; dv += step)`
(lines 333–334). -/
def ringVals (radius : ℕ) : List ℤ :=
  (List.range (2 * radius / ringStep radius + 1)).map
    (fun k => -(radius : ℤ) + k * ringStep radius)

/-- The `(dy, dx)` offsets visited by the nested ring loops, `dy` outer. -/
def ringPairs (radius : ℕ) : List (ℤ × ℤ) :=
  (ringVals radius).flatMap (fun dy => (ringVals radius).map (fun dx => (dy, dx)))

/-- The running sums `rSum, gSum, bSum, wSum` of line 328. -/
structure SampleState where
  rs : ℚ
  gs : ℚ
  bs : ℚ
  ws : ℚ
deriving DecidableEq

def SampleState.add (s t : SampleState) : SampleState :=
  ⟨s.rs + t.rs, s.gs + t.gs, s.bs + t.bs, s.ws + t.ws⟩

/-- One iteration of the inner sampling loops (lines 335–363) classified:
`none` when the candidate is skipped (outside the tolerance band, masked,
or off canvas), otherwise `some` of the sampled pixel's flat index and its
squared distance.  The float test `√d2 < radius−1 || √d2 > radius+1` is
exact for these integers and is written squared. -/
def sampleSpot (A : ℕ → ℚ) (ox oy w h W H : ℕ) (row col : ℕ) (radius : ℕ)
    (pr : ℤ × ℤ) : Option (ℕ × ℤ) :=
  let dy := pr.1
  let dx := pr.2
  let d2 := dx * dx + dy * dy
  if d2 < ((radius:ℤ) - 1)^2 ∨ ((radius:ℤ) + 1)^2 < d2 then none
  else
    let sRow : ℤ := (row:ℤ) + dy
    let sCol : ℤ := (col:ℤ) + dx
    if 0 ≤ sRow ∧ sRow < h ∧ 0 ≤ sCol ∧ sCol < w then
      if maskOf A (sRow.toNat * w + sCol.toNat) then none
      else some (((oy:ℤ) + sRow).toNat * W + ((ox:ℤ) + sCol).toNat, d2)
    else
      if 0 ≤ (oy:ℤ) + sRow ∧ (oy:ℤ) + sRow < H ∧ 0 ≤ (ox:ℤ) + sCol ∧ (ox:ℤ) + sCol < W
      then some (((oy:ℤ) + sRow).toNat * W + ((ox:ℤ) + sCol).toNat, d2)
      else none

/-- `rSum += data[i]·weight; …; wSum += weight` with `weight = 1/(dist·dist)`
(lines 347–351 and 357–362). -/
def addSample (d : ℕ → ℕ) (st : SampleState) (p : ℕ) (d2 : ℤ) : SampleState :=
  ⟨st.rs + (d (4*p) : ℚ) * (1 / (d2:ℚ)),
   st.gs + (d (4*p+1) : ℚ) * (1 / (d2:ℚ)),
   st.bs + (d (4*p+2) : ℚ) * (1 / (d2:ℚ)),
   st.ws + 1 / (d2:ℚ)⟩

/-- One ring of the sampling loop (lines 331–365). -/
def ringScan (A : ℕ → ℚ) (ox oy w h W H row col : ℕ) (d : ℕ → ℕ) (radius : ℕ)
    (st : SampleState) : SampleState :=
  (ringPairs radius).foldl (fun st2 pr =>
    match sampleSpot A ox oy w h W H row col radius pr with
    | none => st2
    | some (p, d2) => addSample d st2 p d2) st

/-- The ring loop `for (radius = 1; radius <= SEARCH_RADIUS && wSum < 8;
radius++)` (line 330), recursing on the remaining number of radii. -/
def ringLoop (A : ℕ → ℚ) (ox oy w h W H row col : ℕ) (d : ℕ → ℕ) :
    ℕ → ℕ → SampleState → SampleState
  | _radius, 0, st => st
  | radius, fuel+1, st =>
    if st.ws < 8 then
      ringLoop A ox oy w h W H row col d (radius+1) fuel
        (ringScan A ox oy w h W H row col d radius st)
    else st

/-- The whole surrounding-sample search for one masked pixel. -/
def pixelSearch (A : ℕ → ℚ) (ox oy w h W H row col : ℕ) (d : ℕ → ℕ) :
    SampleState :=
  ringLoop A ox oy w h W H row col d 1 (searchRadius w h) ⟨0, 0, 0, 0⟩

/-- The write-back of lines 368–373: `data[i] = Math.round(sum / wSum)` for
the three RGB bytes of the pixel at flat base index `base`. -/
def writePixel (d : ℕ → ℕ) (base : ℕ) (st : SampleState) : ℕ → ℕ := fun idx =>
  if idx = base then clampByte (round (st.rs / st.ws))
  else if idx = base + 1 then clampByte (round (st.gs / st.ws))
  else if idx = base + 2 then clampByte (round (st.bs / st.ws))
  else d idx

/-- Processing of one region pixel (lines 323–374): masked pixels with a
positive accumulated weight get their RGB replaced, everything else is left
alone. -/
def pixelStep (A : ℕ → ℚ) (ox oy w h W H : ℕ) (d : ℕ → ℕ) (q : ℕ × ℕ) :
    ℕ → ℕ :=
  if maskOf A (q.1 * w + q.2) then
    if 0 < (pixelSearch A ox oy w h W H q.1 q.2 d).ws then
      writePixel d (4 * ((oy + q.1) * W + (ox + q.2)))
        (pixelSearch A ox oy w h W H q.1 q.2 d)
    else d
  else d

/-- Unfolding equation for `pixelStep`. -/
theorem pixelStep_eq (A : ℕ → ℚ) (ox oy w h W H : ℕ) (d : ℕ → ℕ) (q : ℕ × ℕ) :
    pixelStep A ox oy w h W H d q
      = if maskOf A (q.1 * w + q.2) = true then
          if 0 < (pixelSearch A ox oy w h W H q.1 q.2 d).ws then
            writePixel d (4 * ((oy + q.1) * W + (ox + q.2)))
              (pixelSearch A ox oy w h W H q.1 q.2 d)
          else d
        else d := rfl

/-- The row-major region pixel enumeration of the outer loops (lines
323–324). -/
def pixelList (h w : ℕ) : List (ℕ × ℕ) :=
  (List.range h).flatMap (fun row => (List.range w).map (fun col => (row, col)))

/-- `removeWatermarkWithAlphaMap` (lines 299–376). -/
def removeWatermarkWithAlphaMap (d : ℕ → ℕ) (A : ℕ → ℚ) (ox oy w h W H : ℕ) :
    ℕ → ℕ :=
  (pixelList h w).foldl (pixelStep A ox oy w h W H) d

/-! Spec-side formulation (claim C1's wording): per ring, the accepted
candidates are the stride-grid offsets whose Euclidean distance lies in
`[radius−1, radius+1]` and which denote non-masked in-canvas pixels; each
contributes weight `1/distance²`; rings run from 1 up to
`max(w,h) + 8`, stopping once the accumulated weight reaches 8 (checked at
ring boundaries); all sums are taken over the input image. -/

/-- The candidates one ring accepts, with squared distances. -/
def ringAccepted (A : ℕ → ℚ) (ox oy w h W H row col radius : ℕ) :
    List (ℕ × ℤ) :=
  (ringPairs radius).filterMap (sampleSpot A ox oy w h W H row col radius)

/-- A ring's total contribution: the `1/d²`-weighted channel sums and the
weight total of all accepted candidates. -/
def ringTotal (A : ℕ → ℚ) (ox oy w h W H row col radius : ℕ) (d : ℕ → ℕ) :
    SampleState :=
  ⟨((ringAccepted A ox oy w h W H row col radius).map
      (fun s => (d (4*s.1) : ℚ) * (1/(s.2:ℚ)))).sum,
   ((ringAccepted A ox oy w h W H row col radius).map
      (fun s => (d (4*s.1+1) : ℚ) * (1/(s.2:ℚ)))).sum,
   ((ringAccepted A ox oy w h W H row col radius).map
      (fun s => (d (4*s.1+2) : ℚ) * (1/(s.2:ℚ)))).sum,
   ((ringAccepted A ox oy w h W H row col radius).map
      (fun s => 1/(s.2:ℚ))).sum⟩

/-- The ring recursion in sum form. -/
def specLoop (A : ℕ → ℚ) (ox oy w h W H row col : ℕ) (d : ℕ → ℕ) :
    ℕ → ℕ → SampleState → SampleState
  | _radius, 0, st => st
  | radius, fuel+1, st =>
    if st.ws < 8 then
      specLoop A ox oy w h W H row col d (radius+1) fuel
        (st.add (ringTotal A ox oy w h W H row col radius d))
    else st

/-- The spec-side search value for one masked pixel. -/
def specSearch (A : ℕ → ℚ) (ox oy w h W H row col : ℕ) (d : ℕ → ℕ) :
    SampleState :=
  specLoop A ox oy w h W H row col d 1 (searchRadius w h) ⟨0, 0, 0, 0⟩

/-- The flat byte indices holding the RGB channels of masked region pixels:
exactly the bytes the reconstructor may write, and the bytes whose content
the claims allow two inputs to differ in. -/
def maskedIdx (A : ℕ → ℚ) (ox oy w h W : ℕ) (idx : ℕ) : Prop :=
  ∃ row col ch : ℕ, row < h ∧ col < w ∧ ch < 3
    ∧ maskOf A (row * w + col) = true
    ∧ idx = 4 * ((oy + row) * W + (ox + col)) + ch

theorem mulAdd_inj (W a b a2 b2 : ℕ) (hb : b < W) (hb2 : b2 < W)
    (he : a * W + b = a2 * W + b2) : a = a2 ∧ b = b2 := by
  have hW : 0 < W := lt_of_le_of_lt (Nat.zero_le b) hb
  have h1 : (a * W + b) % W = b := by
    rw [Nat.mul_comm, Nat.mul_add_mod]
    exact Nat.mod_eq_of_lt hb
  have h2 : (a2 * W + b2) % W = b2 := by
    rw [Nat.mul_comm, Nat.mul_add_mod]
    exact Nat.mod_eq_of_lt hb2
  have hbb : b = b2 := by rw [← h1, ← h2, he]
  refine ⟨?_, hbb⟩
  have : a * W = a2 * W := by omega
  exact Nat.eq_of_mul_eq_mul_right hW this

theorem mem_pixelList (h w : ℕ) (q : ℕ × ℕ) :
    q ∈ pixelList h w ↔ q.1 < h ∧ q.2 < w := by
  unfold pixelList
  constructor
  · intro hq
    rw [List.mem_flatMap] at hq
    obtain ⟨row, hrow, hq2⟩ := hq
    rw [List.mem_map] at hq2
    obtain ⟨col, hcol, rfl⟩ := hq2
    exact ⟨List.mem_range.mp hrow, List.mem_range.mp hcol⟩
  · intro ⟨h1, h2⟩
    rw [List.mem_flatMap]
    exact ⟨q.1, List.mem_range.mpr h1,
      List.mem_map.mpr ⟨q.2, List.mem_range.mpr h2, rfl⟩⟩

/-- An accepted sample never denotes an RGB byte of a masked region pixel:
in-region candidates passed the mask test, and out-of-region candidates lie
(with the region in bounds) at canvas coordinates no region pixel occupies. -/
theorem sampleSpot_not_masked (A : ℕ → ℚ) (ox oy w h W H row col radius : ℕ)
    (hbw : ox + w ≤ W) (_hbh : oy + h ≤ H) (pr : ℤ × ℤ) (p : ℕ) (d2 : ℤ)
    (hs : sampleSpot A ox oy w h W H row col radius pr = some (p, d2))
    (ch : ℕ) (hch : ch < 3) : ¬ maskedIdx A ox oy w h W (4*p+ch) := by
  intro hm
  obtain ⟨row2, col2, ch2, hr2, hc2, hch2, hmask2, heq⟩ := hm
  have hpe : (oy + row2) * W + (ox + col2) = p ∧ ch2 = ch := by
    constructor <;> omega
  simp only [sampleSpot] at hs
  by_cases htol : pr.2 * pr.2 + pr.1 * pr.1 < ((radius:ℤ) - 1)^2
      ∨ ((radius:ℤ) + 1)^2 < pr.2 * pr.2 + pr.1 * pr.1
  · rw [if_pos htol] at hs
    exact Option.noConfusion hs
  · rw [if_neg htol] at hs
    by_cases hreg : 0 ≤ (row:ℤ) + pr.1 ∧ (row:ℤ) + pr.1 < h
        ∧ 0 ≤ (col:ℤ) + pr.2 ∧ (col:ℤ) + pr.2 < w
    · rw [if_pos hreg] at hs
      by_cases hmk : maskOf A (((row:ℤ) + pr.1).toNat * w + ((col:ℤ) + pr.2).toNat) = true
      · rw [if_pos hmk] at hs
        exact Option.noConfusion hs
      · rw [if_neg hmk] at hs
        have hp : ((oy:ℤ) + ((row:ℤ) + pr.1)).toNat * W + ((ox:ℤ) + ((col:ℤ) + pr.2)).toNat
            = p := congrArg Prod.fst (Option.some_inj.mp hs)
        have haY : ((oy:ℤ) + ((row:ℤ) + pr.1)).toNat = oy + ((row:ℤ) + pr.1).toNat := by
          omega
        have haX : ((ox:ℤ) + ((col:ℤ) + pr.2)).toNat = ox + ((col:ℤ) + pr.2).toNat := by
          omega
        have hbX : ox + ((col:ℤ) + pr.2).toNat < W := by omega
        have hbc2 : ox + col2 < W := by omega
        rw [haY, haX] at hp
        rw [← hpe.1] at hp
        obtain ⟨hy2, hx2⟩ := mulAdd_inj W _ _ _ _ hbX hbc2 hp
        have hrr : ((row:ℤ) + pr.1).toNat = row2 := by omega
        have hcc : ((col:ℤ) + pr.2).toNat = col2 := by omega
        rw [hrr, hcc] at hmk
        exact hmk hmask2
    · rw [if_neg hreg] at hs
      by_cases hcv : 0 ≤ (oy:ℤ) + ((row:ℤ) + pr.1) ∧ (oy:ℤ) + ((row:ℤ) + pr.1) < H
          ∧ 0 ≤ (ox:ℤ) + ((col:ℤ) + pr.2) ∧ (ox:ℤ) + ((col:ℤ) + pr.2) < W
      · rw [if_pos hcv] at hs
        have hp : ((oy:ℤ) + ((row:ℤ) + pr.1)).toNat * W + ((ox:ℤ) + ((col:ℤ) + pr.2)).toNat
            = p := congrArg Prod.fst (Option.some_inj.mp hs)
        have hbX : ((ox:ℤ) + ((col:ℤ) + pr.2)).toNat < W := by omega
        have hbc2 : ox + col2 < W := by omega
        rw [← hpe.1] at hp
        obtain ⟨hy2, hx2⟩ := mulAdd_inj W _ _ _ _ hbX hbc2 hp
        exact hreg (by omega)
      · rw [if_neg hcv] at hs
        exact Option.noConfusion hs

/-- The surrounding-sample search reads the buffer only at accepted sample
indices, which are never masked bytes: two buffers agreeing outside the
masked bytes yield the same search state. -/
theorem ringScan_congr (A : ℕ → ℚ) (ox oy w h W H row col radius : ℕ)
    (hbw : ox + w ≤ W) (hbh : oy + h ≤ H) (d1 d2 : ℕ → ℕ)
    (hagree : ∀ idx, ¬ maskedIdx A ox oy w h W idx → d1 idx = d2 idx)
    (st : SampleState) :
    ringScan A ox oy w h W H row col d1 radius st
      = ringScan A ox oy w h W H row col d2 radius st := by
  unfold ringScan
  induction ringPairs radius generalizing st with
  | nil => rfl
  | cons a t ih =>
    simp only [List.foldl_cons]
    cases hsp : sampleSpot A ox oy w h W H row col radius a with
    | none =>
      simp only [hsp]
      exact ih _
    | some s =>
      obtain ⟨p, dsq⟩ := s
      simp only [hsp]
      have h0 := sampleSpot_not_masked A ox oy w h W H row col radius hbw hbh
        a p dsq hsp 0 (by norm_num)
      have h1 := sampleSpot_not_masked A ox oy w h W H row col radius hbw hbh
        a p dsq hsp 1 (by norm_num)
      have h2 := sampleSpot_not_masked A ox oy w h W H row col radius hbw hbh
        a p dsq hsp 2 (by norm_num)
      have e0 : d1 (4*p) = d2 (4*p) := by
        have := hagree (4*p+0) h0
        simpa using this
      have e1 : d1 (4*p+1) = d2 (4*p+1) := hagree _ h1
      have e2 : d1 (4*p+2) = d2 (4*p+2) := hagree _ h2
      have heq : addSample d1 st p dsq = addSample d2 st p dsq := by
        unfold addSample
        rw [e0, e1, e2]
      rw [heq]
      exact ih _

theorem ringLoop_congr (A : ℕ → ℚ) (ox oy w h W H row col : ℕ)
    (hbw : ox + w ≤ W) (hbh : oy + h ≤ H) (d1 d2 : ℕ → ℕ)
    (hagree : ∀ idx, ¬ maskedIdx A ox oy w h W idx → d1 idx = d2 idx) :
    ∀ (fuel radius : ℕ) (st : SampleState),
      ringLoop A ox oy w h W H row col d1 radius fuel st
        = ringLoop A ox oy w h W H row col d2 radius fuel st := by
  intro fuel
  induction fuel with
  | zero => intro radius st; rfl
  | succ k ih =>
    intro radius st
    show (if st.ws < 8 then ringLoop A ox oy w h W H row col d1 (radius+1) k
        (ringScan A ox oy w h W H row col d1 radius st) else st)
      = (if st.ws < 8 then ringLoop A ox oy w h W H row col d2 (radius+1) k
        (ringScan A ox oy w h W H row col d2 radius st) else st)
    rw [ringScan_congr A ox oy w h W H row col radius hbw hbh d1 d2 hagree st]
    by_cases hws : st.ws < 8
    · rw [if_pos hws, if_pos hws]
      exact ih _ _
    · rw [if_neg hws, if_neg hws]

theorem pixelSearch_congr (A : ℕ → ℚ) (ox oy w h W H row col : ℕ)
    (hbw : ox + w ≤ W) (hbh : oy + h ≤ H) (d1 d2 : ℕ → ℕ)
    (hagree : ∀ idx, ¬ maskedIdx A ox oy w h W idx → d1 idx = d2 idx) :
    pixelSearch A ox oy w h W H row col d1 = pixelSearch A ox oy w h W H row col d2 :=
  ringLoop_congr A ox oy w h W H row col hbw hbh d1 d2 hagree _ 1 ⟨0, 0, 0, 0⟩

/-- Processing one pixel touches nothing but that pixel's RGB bytes. -/
theorem pixelStep_ne (A : ℕ → ℚ) (ox oy w h W H : ℕ) (d : ℕ → ℕ) (q : ℕ × ℕ)
    (idx : ℕ) (hmiss : ∀ ch, ch < 3 → idx ≠ 4*((oy+q.1)*W+(ox+q.2))+ch) :
    pixelStep A ox oy w h W H d q idx = d idx := by
  have h0 := hmiss 0 (by norm_num)
  have h1 := hmiss 1 (by norm_num)
  have h2 := hmiss 2 (by norm_num)
  unfold pixelStep
  by_cases hm : maskOf A (q.1 * w + q.2) = true
  · rw [if_pos hm]
    by_cases hws : 0 < (pixelSearch A ox oy w h W H q.1 q.2 d).ws
    · rw [if_pos hws]
      unfold writePixel
      rw [if_neg (by omega), if_neg (by omega), if_neg (by omega)]
    · rw [if_neg hws]
  · rw [if_neg hm]

/-- Bytes not written by any pixel of the processed list keep their input
value. -/
theorem foldl_outside (A : ℕ → ℚ) (ox oy w h W H : ℕ) (d : ℕ → ℕ) :
    ∀ (L : List (ℕ × ℕ)) (idx : ℕ),
      (∀ q ∈ L, maskOf A (q.1*w+q.2) = true →
        ∀ ch, ch < 3 → idx ≠ 4*((oy+q.1)*W+(ox+q.2))+ch) →
      L.foldl (pixelStep A ox oy w h W H) d idx = d idx := by
  intro L
  induction L using List.reverseRecOn with
  | nil => intro idx _; rfl
  | append_singleton L2 p ih =>
    intro idx hidx
    rw [List.foldl_append, List.foldl_cons, List.foldl_nil]
    by_cases hm : maskOf A (p.1 * w + p.2) = true
    · rw [pixelStep_ne A ox oy w h W H _ p idx
        (fun ch hch => hidx p (by simp) hm ch hch)]
      exact ih idx (fun q hq => hidx q (by simp [hq]))
    · show pixelStep A ox oy w h W H _ p idx = d idx
      unfold pixelStep
      rw [if_neg hm]
      exact ih idx (fun q hq => hidx q (by simp [hq]))

/-- With the region in bounds, unmasked bytes are never written. -/
theorem foldl_agree_off_masked (A : ℕ → ℚ) (ox oy w h W H : ℕ) (d : ℕ → ℕ)
    (L : List (ℕ × ℕ)) (hL : ∀ q ∈ L, q.1 < h ∧ q.2 < w) (idx : ℕ)
    (hnm : ¬ maskedIdx A ox oy w h W idx) :
    L.foldl (pixelStep A ox oy w h W H) d idx = d idx := by
  apply foldl_outside
  intro q hq hmq ch hch heq
  exact hnm ⟨q.1, q.2, ch, (hL q hq).1, (hL q hq).2, hch, hmq, heq⟩

/-- Sequential-to-pure reduction: because every sample the search reads is
an unmasked byte and every write lands on a masked byte of the pixel being
processed, each region pixel's final bytes equal the effect of processing
that pixel alone on the original buffer. -/
theorem foldl_char (A : ℕ → ℚ) (ox oy w h W H : ℕ)
    (hbw : ox + w ≤ W) (hbh : oy + h ≤ H) (d : ℕ → ℕ) :
    ∀ (L : List (ℕ × ℕ)), (∀ q ∈ L, q.1 < h ∧ q.2 < w) →
      ∀ q ∈ L, ∀ ch, ch < 3 →
        L.foldl (pixelStep A ox oy w h W H) d (4*((oy+q.1)*W+(ox+q.2))+ch)
          = pixelStep A ox oy w h W H d q (4*((oy+q.1)*W+(ox+q.2))+ch) := by
  intro L
  induction L using List.reverseRecOn with
  | nil =>
    intro _ q hq
    exact absurd hq (List.not_mem_nil q)
  | append_singleton L2 p ih =>
    intro hL q hq ch hch
    have hL2 : ∀ r ∈ L2, r.1 < h ∧ r.2 < w := fun r hr => hL r (by simp [hr])
    have hqb : q.1 < h ∧ q.2 < w := hL q hq
    have hpb : p.1 < h ∧ p.2 < w := hL p (by simp)
    have hagree : ∀ idx, ¬ maskedIdx A ox oy w h W idx →
        L2.foldl (pixelStep A ox oy w h W H) d idx = d idx :=
      fun idx hidx => foldl_agree_off_masked A ox oy w h W H d L2 hL2 idx hidx
    have hcong : pixelSearch A ox oy w h W H p.1 p.2
          (L2.foldl (pixelStep A ox oy w h W H) d)
        = pixelSearch A ox oy w h W H p.1 p.2 d :=
      pixelSearch_congr A ox oy w h W H p.1 p.2 hbw hbh _ _ hagree
    rw [List.foldl_append, List.foldl_cons, List.foldl_nil]
    by_cases hqp : q = p
    · subst hqp
      rw [pixelStep_eq A ox oy w h W H (L2.foldl (pixelStep A ox oy w h W H) d) q,
        pixelStep_eq A ox oy w h W H d q]
      by_cases hm : maskOf A (q.1 * w + q.2) = true
      · rw [if_pos hm, if_pos hm, hcong]
        by_cases hws : 0 < (pixelSearch A ox oy w h W H q.1 q.2 d).ws
        · rw [if_pos hws, if_pos hws]
          unfold writePixel
          interval_cases ch
          · rw [if_pos (by omega), if_pos (by omega)]
          · rw [if_neg (by omega), if_pos (by omega), if_neg (by omega),
              if_pos (by omega)]
          · rw [if_neg (by omega), if_neg (by omega), if_pos (by omega),
              if_neg (by omega), if_neg (by omega), if_pos (by omega)]
        · rw [if_neg hws, if_neg hws]
          by_cases hqL2 : q ∈ L2
          · have := ih hL2 q hqL2 ch hch
            rw [this, pixelStep_eq A ox oy w h W H d q]
            rw [if_pos hm, if_neg hws]
          · apply foldl_outside
            intro r hr hmr ch2 hch2 heq
            have hrb : r.1 < h ∧ r.2 < w := hL2 r hr
            have : (oy + q.1) * W + (ox + q.2) = (oy + r.1) * W + (ox + r.2)
                ∧ ch = ch2 := by omega
            obtain ⟨hy2, hx2⟩ := mulAdd_inj W _ _ _ _ (by omega) (by omega) this.1
            have : q = r := by
              apply Prod.ext <;> omega
            exact hqL2 (this ▸ hr)
      · rw [if_neg hm, if_neg hm]
        apply foldl_outside
        intro r hr hmr ch2 hch2 heq
        have hrb : r.1 < h ∧ r.2 < w := hL2 r hr
        have hpe : (oy + q.1) * W + (ox + q.2) = (oy + r.1) * W + (ox + r.2)
            ∧ ch = ch2 := by omega
        obtain ⟨hy2, hx2⟩ := mulAdd_inj W _ _ _ _ (by omega) (by omega) hpe.1
        have hqr : q = r := by
          apply Prod.ext <;> omega
        rw [← hqr] at hmr
        exact hm hmr
    · have hqor : q ∈ L2 ∨ q = p := by simpa using hq
      have hqL2 : q ∈ L2 := hqor.resolve_right hqp
      rw [pixelStep_ne A ox oy w h W H _ p _ ?_]
      · exact ih hL2 q hqL2 ch hch
      · intro ch2 hch2 heq
        have hpe : (oy + q.1) * W + (ox + q.2) = (oy + p.1) * W + (ox + p.2)
            ∧ ch = ch2 := by omega
        obtain ⟨hy2, hx2⟩ := mulAdd_inj W _ _ _ _ (by omega) (by omega) hpe.1
        exact hqp (Prod.ext (by omega) (by omega))

/-- The skip-based fold of one ring equals the ring's contribution in sum
form. -/
theorem ringScan_eq_total (A : ℕ → ℚ) (ox oy w h W H row col radius : ℕ)
    (d : ℕ → ℕ) (st : SampleState) :
    ringScan A ox oy w h W H row col d radius st
      = st.add (ringTotal A ox oy w h W H row col radius d) := by
  unfold ringScan ringTotal ringAccepted
  induction ringPairs radius generalizing st with
  | nil => simp [SampleState.add]
  | cons a t ih =>
    simp only [List.foldl_cons, List.filterMap_cons]
    cases hsp : sampleSpot A ox oy w h W H row col radius a with
    | none =>
      simp only [hsp]
      exact ih st
    | some s =>
      obtain ⟨p, dsq⟩ := s
      simp only [hsp, List.map_cons, List.sum_cons]
      rw [ih (addSample d st p dsq)]
      unfold addSample SampleState.add
      simp only [SampleState.mk.injEq]
      refine ⟨by ring, by ring, by ring, by ring⟩

theorem ringLoop_eq_specLoop (A : ℕ → ℚ) (ox oy w h W H row col : ℕ)
    (d : ℕ → ℕ) :
    ∀ (fuel radius : ℕ) (st : SampleState),
      ringLoop A ox oy w h W H row col d radius fuel st
        = specLoop A ox oy w h W H row col d radius fuel st := by
  intro fuel
  induction fuel with
  | zero => intro radius st; rfl
  | succ k ih =>
    intro radius st
    show (if st.ws < 8 then ringLoop A ox oy w h W H row col d (radius+1) k
        (ringScan A ox oy w h W H row col d radius st) else st)
      = (if st.ws < 8 then specLoop A ox oy w h W H row col d (radius+1) k
        (st.add (ringTotal A ox oy w h W H row col radius d)) else st)
    rw [ringScan_eq_total]
    by_cases hws : st.ws < 8
    · rw [if_pos hws, if_pos hws]
      exact ih _ _
    · rw [if_neg hws, if_neg hws]

/-- Refinement: the source's threaded search equals the spec-side sum
formulation. -/
theorem pixelSearch_eq_specSearch (A : ℕ → ℚ) (ox oy w h W H row col : ℕ)
    (d : ℕ → ℕ) :
    pixelSearch A ox oy w h W H row col d = specSearch A ox oy w h W H row col d :=
  ringLoop_eq_specLoop A ox oy w h W H row col d _ 1 ⟨0, 0, 0, 0⟩

/-- Facts carried by an accepted sample: its recorded squared distance is
the offset's, it lies in the ring's tolerance band, and an in-region
candidate passed the mask test. -/
theorem sampleSpot_some_facts (A : ℕ → ℚ) (ox oy w h W H row col radius : ℕ)
    (pr : ℤ × ℤ) (p : ℕ) (dsq : ℤ)
    (hs : sampleSpot A ox oy w h W H row col radius pr = some (p, dsq)) :
    dsq = pr.2 * pr.2 + pr.1 * pr.1
    ∧ ((radius:ℤ) - 1)^2 ≤ dsq ∧ dsq ≤ ((radius:ℤ) + 1)^2
    ∧ (0 ≤ (row:ℤ) + pr.1 ∧ (row:ℤ) + pr.1 < h ∧ 0 ≤ (col:ℤ) + pr.2
        ∧ (col:ℤ) + pr.2 < w →
        ¬ maskOf A (((row:ℤ) + pr.1).toNat * w + ((col:ℤ) + pr.2).toNat) = true) := by
  simp only [sampleSpot] at hs
  by_cases htol : pr.2 * pr.2 + pr.1 * pr.1 < ((radius:ℤ) - 1)^2
      ∨ ((radius:ℤ) + 1)^2 < pr.2 * pr.2 + pr.1 * pr.1
  · rw [if_pos htol] at hs
    exact Option.noConfusion hs
  · rw [if_neg htol] at hs
    push_neg at htol
    by_cases hreg : 0 ≤ (row:ℤ) + pr.1 ∧ (row:ℤ) + pr.1 < h ∧ 0 ≤ (col:ℤ) + pr.2
        ∧ (col:ℤ) + pr.2 < w
    · rw [if_pos hreg] at hs
      by_cases hmk : maskOf A (((row:ℤ) + pr.1).toNat * w + ((col:ℤ) + pr.2).toNat) = true
      · rw [if_pos hmk] at hs
        exact Option.noConfusion hs
      · rw [if_neg hmk] at hs
        have hd : dsq = pr.2 * pr.2 + pr.1 * pr.1 :=
          (congrArg Prod.snd (Option.some_inj.mp hs)).symm
        exact ⟨hd, hd ▸ htol.1, hd ▸ htol.2, fun _ => hmk⟩
    · rw [if_neg hreg] at hs
      by_cases hcv : 0 ≤ (oy:ℤ) + ((row:ℤ) + pr.1) ∧ (oy:ℤ) + ((row:ℤ) + pr.1) < H
          ∧ 0 ≤ (ox:ℤ) + ((col:ℤ) + pr.2) ∧ (ox:ℤ) + ((col:ℤ) + pr.2) < W
      · rw [if_pos hcv] at hs
        have hd : dsq = pr.2 * pr.2 + pr.1 * pr.1 :=
          (congrArg Prod.snd (Option.some_inj.mp hs)).symm
        exact ⟨hd, hd ▸ htol.1, hd ▸ htol.2, fun hr => absurd hr hreg⟩
      · rw [if_neg hcv] at hs
        exact Option.noConfusion hs

/-- Distance 0 is never accepted: the only offset with squared distance 0
is `(0,0)`, which passes the tolerance test only in the radius-1 ring and is
then the masked target pixel itself, skipped by the mask test; any other
offset has squared distance at least 1. -/
theorem sampleSpot_d2_one (A : ℕ → ℚ) (ox oy w h W H row col radius : ℕ)
    (hrow : row < h) (hcol : col < w)
    (hmask : maskOf A (row * w + col) = true) (_hrad : 1 ≤ radius)
    (pr : ℤ × ℤ) (p : ℕ) (dsq : ℤ)
    (hs : sampleSpot A ox oy w h W H row col radius pr = some (p, dsq)) :
    1 ≤ dsq := by
  obtain ⟨hd, htol1, _htol2, hmk⟩ :=
    sampleSpot_some_facts A ox oy w h W H row col radius pr p dsq hs
  by_cases hzero : pr.1 = 0 ∧ pr.2 = 0
  · exfalso
    obtain ⟨hz1, hz2⟩ := hzero
    have hd0 : dsq = 0 := by rw [hd, hz1, hz2]; ring
    have hmsk2 := hmk (by
      constructor
      · omega
      constructor
      · omega
      constructor
      · omega
      · omega)
    apply hmsk2
    have hrw : ((row:ℤ) + pr.1).toNat = row := by omega
    have hcw : ((col:ℤ) + pr.2).toNat = col := by omega
    rw [hrw, hcw]
    exact hmask
  · have h1 : pr.1 ≤ -1 ∨ 1 ≤ pr.1 ∨ pr.2 ≤ -1 ∨ 1 ≤ pr.2 := by
      rcases not_and_or.mp hzero with hnz | hnz <;> omega
    rw [hd]
    rcases h1 with h1 | h1 | h1 | h1 <;>
      nlinarith [mul_self_nonneg pr.1, mul_self_nonneg pr.2]

theorem ringScan_ws_nonneg (A : ℕ → ℚ) (ox oy w h W H row col radius : ℕ)
    (hrow : row < h) (hcol : col < w)
    (hmask : maskOf A (row * w + col) = true) (hrad : 1 ≤ radius)
    (d : ℕ → ℕ) (st : SampleState) (hst : 0 ≤ st.ws) :
    0 ≤ (ringScan A ox oy w h W H row col d radius st).ws := by
  unfold ringScan
  induction ringPairs radius generalizing st with
  | nil => exact hst
  | cons a t ih =>
    simp only [List.foldl_cons]
    cases hsp : sampleSpot A ox oy w h W H row col radius a with
    | none =>
      simp only [hsp]
      exact ih st hst
    | some s =>
      obtain ⟨p, dsq⟩ := s
      simp only [hsp]
      apply ih
      have hd1 : 1 ≤ dsq :=
        sampleSpot_d2_one A ox oy w h W H row col radius hrow hcol hmask hrad
          a p dsq hsp
      have : (0:ℚ) < 1 / (dsq:ℚ) := by
        apply div_pos one_pos
        exact_mod_cast lt_of_lt_of_le one_pos hd1
      show 0 ≤ st.ws + 1 / (dsq:ℚ)
      linarith

theorem ringLoop_ws_nonneg (A : ℕ → ℚ) (ox oy w h W H row col : ℕ)
    (hrow : row < h) (hcol : col < w)
    (hmask : maskOf A (row * w + col) = true) (d : ℕ → ℕ) :
    ∀ (fuel radius : ℕ), 1 ≤ radius → ∀ (st : SampleState), 0 ≤ st.ws →
      0 ≤ (ringLoop A ox oy w h W H row col d radius fuel st).ws := by
  intro fuel
  induction fuel with
  | zero => intro radius _ st hst; exact hst
  | succ k ih =>
    intro radius hrad st hst
    show 0 ≤ (if st.ws < 8 then ringLoop A ox oy w h W H row col d (radius+1) k
        (ringScan A ox oy w h W H row col d radius st) else st).ws
    by_cases hws : st.ws < 8
    · rw [if_pos hws]
      exact ih (radius+1) (by omega) _
        (ringScan_ws_nonneg A ox oy w h W H row col radius hrow hcol hmask hrad d st hst)
    · rw [if_neg hws]
      exact hst

theorem pixelSearch_ws_nonneg (A : ℕ → ℚ) (ox oy w h W H row col : ℕ)
    (hrow : row < h) (hcol : col < w)
    (hmask : maskOf A (row * w + col) = true) (d : ℕ → ℕ) :
    0 ≤ (pixelSearch A ox oy w h W H row col d).ws :=
  ringLoop_ws_nonneg A ox oy w h W H row col hrow hcol hmask d _ 1 (by omega)
    ⟨0, 0, 0, 0⟩ (by norm_num)

/-- Evaluation of one masked pixel's processing at its own three RGB bytes. -/
theorem pixelStep_masked_eval (A : ℕ → ℚ) (ox oy w h W H : ℕ) (d : ℕ → ℕ)
    (row col : ℕ) (hm : maskOf A (row * w + col) = true) :
    (pixelStep A ox oy w h W H d (row, col) (4*((oy+row)*W+(ox+col))+0)
        = (if 0 < (pixelSearch A ox oy w h W H row col d).ws
           then clampByte (round ((pixelSearch A ox oy w h W H row col d).rs
             / (pixelSearch A ox oy w h W H row col d).ws))
           else d (4*((oy+row)*W+(ox+col))+0)))
    ∧ (pixelStep A ox oy w h W H d (row, col) (4*((oy+row)*W+(ox+col))+1)
        = (if 0 < (pixelSearch A ox oy w h W H row col d).ws
           then clampByte (round ((pixelSearch A ox oy w h W H row col d).gs
             / (pixelSearch A ox oy w h W H row col d).ws))
           else d (4*((oy+row)*W+(ox+col))+1)))
    ∧ (pixelStep A ox oy w h W H d (row, col) (4*((oy+row)*W+(ox+col))+2)
        = (if 0 < (pixelSearch A ox oy w h W H row col d).ws
           then clampByte (round ((pixelSearch A ox oy w h W H row col d).bs
             / (pixelSearch A ox oy w h W H row col d).ws))
           else d (4*((oy+row)*W+(ox+col))+2))) := by
  simp only [pixelStep, writePixel]
  rw [if_pos hm]
  by_cases hws : 0 < (pixelSearch A ox oy w h W H row col d).ws
  · rw [if_pos hws, if_pos hws, if_pos hws, if_pos hws]
    simp only [writePixel]
    refine ⟨?_, ?_, ?_⟩
    · split_ifs <;> first | rfl | omega
    · split_ifs <;> first | rfl | omega
    · split_ifs <;> first | rfl | omega
  · rw [if_neg hws, if_neg hws, if_neg hws, if_neg hws]
    exact ⟨rfl, rfl, rfl⟩

/-- Claim C1: the reconstructor masks exactly the pixels whose alpha-map
value exceeds 0.05, and every masked pixel's RGB is set to the rounded
`1/distance²`-weighted average of the candidates accepted over expanding
rings of radius 1 up to `max(w,h)+8` (tolerance band `[radius−1, radius+1]`,
per-ring stride `max(1, ⌊radius/2⌋)`, early stop at accumulated weight 8
checked at ring boundaries), all computed over the input buffer
(`specSearch`); a masked pixel whose search accumulated no weight — no
accepted candidate — keeps its original bytes, and unmasked pixels are
untouched. -/
theorem C1_neighbor_sampling_reconstructor (d : ℕ → ℕ) (A : ℕ → ℚ)
    (ox oy w h W H row col i : ℕ)
    (hbw : ox + w ≤ W) (hbh : oy + h ≤ H) (hrow : row < h) (hcol : col < w) :
    (maskOf A i = true ↔ 1/20 < A i)
    ∧ (maskOf A (row * w + col) = true →
        (removeWatermarkWithAlphaMap d A ox oy w h W H (4*((oy+row)*W+(ox+col))+0)
            = (if 0 < (specSearch A ox oy w h W H row col d).ws
               then clampByte (round ((specSearch A ox oy w h W H row col d).rs
                 / (specSearch A ox oy w h W H row col d).ws))
               else d (4*((oy+row)*W+(ox+col))+0)))
          ∧ (removeWatermarkWithAlphaMap d A ox oy w h W H (4*((oy+row)*W+(ox+col))+1)
            = (if 0 < (specSearch A ox oy w h W H row col d).ws
               then clampByte (round ((specSearch A ox oy w h W H row col d).gs
                 / (specSearch A ox oy w h W H row col d).ws))
               else d (4*((oy+row)*W+(ox+col))+1)))
          ∧ (removeWatermarkWithAlphaMap d A ox oy w h W H (4*((oy+row)*W+(ox+col))+2)
            = (if 0 < (specSearch A ox oy w h W H row col d).ws
               then clampByte (round ((specSearch A ox oy w h W H row col d).bs
                 / (specSearch A ox oy w h W H row col d).ws))
               else d (4*((oy+row)*W+(ox+col))+2))))
    ∧ (¬ maskOf A (row * w + col) = true → ∀ ch, ch < 3 →
        removeWatermarkWithAlphaMap d A ox oy w h W H (4*((oy+row)*W+(ox+col))+ch)
          = d (4*((oy+row)*W+(ox+col))+ch)) := by
  have hLb : ∀ q ∈ pixelList h w, q.1 < h ∧ q.2 < w :=
    fun q hq => (mem_pixelList h w q).mp hq
  have hmem : (row, col) ∈ pixelList h w :=
    (mem_pixelList h w (row, col)).mpr ⟨hrow, hcol⟩
  refine ⟨?_, ?_, ?_⟩
  · simp [maskOf]
  · intro hm
    have hchar := fun (ch : ℕ) (hch : ch < 3) =>
      foldl_char A ox oy w h W H hbw hbh d (pixelList h w) hLb (row, col) hmem ch hch
    have heval := pixelStep_masked_eval A ox oy w h W H d row col hm
    refine ⟨?_, ?_, ?_⟩
    · have := (hchar 0 (by norm_num)).trans heval.1
      rw [pixelSearch_eq_specSearch] at this
      exact this
    · have := (hchar 1 (by norm_num)).trans heval.2.1
      rw [pixelSearch_eq_specSearch] at this
      exact this
    · have := (hchar 2 (by norm_num)).trans heval.2.2
      rw [pixelSearch_eq_specSearch] at this
      exact this
  · intro hm ch hch
    apply foldl_agree_off_masked A ox oy w h W H d (pixelList h w) hLb
    intro hmk
    obtain ⟨row2, col2, ch2, hr2, hc2, hch2, hmask2, heq⟩ := hmk
    have hpe : (oy + row) * W + (ox + col) = (oy + row2) * W + (ox + col2)
        ∧ ch = ch2 := by omega
    obtain ⟨hy2, hx2⟩ := mulAdd_inj W _ _ _ _ (by omega) (by omega) hpe.1
    have : row2 = row ∧ col2 = col := by omega
    rw [this.1, this.2] at hmask2
    exact hm hmask2

/-- Claim C5: every sample contributing to a masked pixel's average is a
non-masked byte (a masked pixel's own color never contributes), and
consequently the search state — and with it every RGB value written to a
masked pixel — is identical across two input buffers that differ only in
the colors of masked pixels. -/
theorem C5_masked_noninterference (d1 d2 : ℕ → ℕ) (A : ℕ → ℚ)
    (ox oy w h W H row col : ℕ)
    (hbw : ox + w ≤ W) (hbh : oy + h ≤ H) (hrow : row < h) (hcol : col < w)
    (hmask : maskOf A (row * w + col) = true)
    (hagree : ∀ idx, ¬ maskedIdx A ox oy w h W idx → d1 idx = d2 idx) :
    (∀ radius : ℕ, ∀ pr : ℤ × ℤ, ∀ p : ℕ, ∀ dsq : ℤ,
        sampleSpot A ox oy w h W H row col radius pr = some (p, dsq) →
        ∀ ch, ch < 3 → ¬ maskedIdx A ox oy w h W (4*p+ch))
    ∧ pixelSearch A ox oy w h W H row col d1 = pixelSearch A ox oy w h W H row col d2
    ∧ (0 < (pixelSearch A ox oy w h W H row col d1).ws → ∀ ch, ch < 3 →
        removeWatermarkWithAlphaMap d1 A ox oy w h W H (4*((oy+row)*W+(ox+col))+ch)
          = removeWatermarkWithAlphaMap d2 A ox oy w h W H (4*((oy+row)*W+(ox+col))+ch)) := by
  have hcong := pixelSearch_congr A ox oy w h W H row col hbw hbh d1 d2 hagree
  refine ⟨?_, hcong, ?_⟩
  · intro radius pr p dsq hs ch hch
    exact sampleSpot_not_masked A ox oy w h W H row col radius hbw hbh pr p dsq hs ch hch
  · intro hws ch hch
    have hLb : ∀ q ∈ pixelList h w, q.1 < h ∧ q.2 < w :=
      fun q hq => (mem_pixelList h w q).mp hq
    have hmem : (row, col) ∈ pixelList h w :=
      (mem_pixelList h w (row, col)).mpr ⟨hrow, hcol⟩
    have h1 := foldl_char A ox oy w h W H hbw hbh d1 (pixelList h w) hLb (row, col)
      hmem ch hch
    have h2 := foldl_char A ox oy w h W H hbw hbh d2 (pixelList h w) hLb (row, col)
      hmem ch hch
    have he1 := pixelStep_masked_eval A ox oy w h W H d1 row col hmask
    have he2 := pixelStep_masked_eval A ox oy w h W H d2 row col hmask
    have hws2 : 0 < (pixelSearch A ox oy w h W H row col d2).ws := hcong ▸ hws
    show removeWatermarkWithAlphaMap d1 A ox oy w h W H (4*((oy+row)*W+(ox+col))+ch)
      = removeWatermarkWithAlphaMap d2 A ox oy w h W H (4*((oy+row)*W+(ox+col))+ch)
    unfold removeWatermarkWithAlphaMap
    rw [h1, h2]
    interval_cases ch
    · rw [he1.1, he2.1, hcong, if_pos hws2, if_pos hws2]
    · rw [he1.2.1, he2.2.1, hcong, if_pos hws2, if_pos hws2]
    · rw [he1.2.2, he2.2.2, hcong, if_pos hws2, if_pos hws2]

/-- Claim C10: the weight `1/(dist·dist)` is never formed at distance 0 —
for a masked target every accepted sample of every ring has squared
distance at least 1 (the only distance-0 offset is `(0,0)`, accepted by the
tolerance band only at radius 1 and then skipped as the masked target
itself), so every individual weight lies in `(0,1]`, the accumulated weight
is nonnegative, and the final division happens only under the `wSum > 0`
guard. -/
theorem C10_weight_positivity (d : ℕ → ℕ) (A : ℕ → ℚ) (ox oy w h W H row col : ℕ)
    (hrow : row < h) (hcol : col < w) (hmask : maskOf A (row * w + col) = true) :
    (∀ radius : ℕ, 1 ≤ radius → ∀ pr : ℤ × ℤ, ∀ p : ℕ, ∀ dsq : ℤ,
        sampleSpot A ox oy w h W H row col radius pr = some (p, dsq) →
        1 ≤ dsq ∧ 0 < 1/(dsq:ℚ) ∧ 1/(dsq:ℚ) ≤ 1)
    ∧ 0 ≤ (pixelSearch A ox oy w h W H row col d).ws
    ∧ pixelStep A ox oy w h W H d (row, col)
        = (if 0 < (pixelSearch A ox oy w h W H row col d).ws
           then writePixel d (4*((oy+row)*W+(ox+col)))
             (pixelSearch A ox oy w h W H row col d)
           else d) := by
  refine ⟨?_, pixelSearch_ws_nonneg A ox oy w h W H row col hrow hcol hmask d, ?_⟩
  · intro radius hrad pr p dsq hs
    have h1 := sampleSpot_d2_one A ox oy w h W H row col radius hrow hcol hmask hrad
      pr p dsq hs
    have hq : (1:ℚ) ≤ (dsq:ℚ) := by exact_mod_cast h1
    have hpos : (0:ℚ) < (dsq:ℚ) := lt_of_lt_of_le one_pos hq
    refine ⟨h1, div_pos one_pos hpos, ?_⟩
    rw [div_le_one hpos]
    exact hq
  · simp only [pixelStep_eq]
    rw [if_pos hmask]

/-- Witness for C1: a 1×1 all-masked region at (1,1) of a 3×3 canvas. -/
theorem C1_neighbor_sampling_reconstructor_witness :
    (maskOf (fun _ => 1) 0 = true ↔ (1:ℚ)/20 < 1)
    ∧ (maskOf (fun _ => 1) (0 * 1 + 0) = true →
        (removeWatermarkWithAlphaMap (fun _ => 7) (fun _ => 1) 1 1 1 1 3 3
            (4*((1+0)*3+(1+0))+0)
          = (if 0 < (specSearch (fun _ => 1) 1 1 1 1 3 3 0 0 (fun _ => 7)).ws
             then clampByte (round ((specSearch (fun _ => 1) 1 1 1 1 3 3 0 0 (fun _ => 7)).rs
               / (specSearch (fun _ => 1) 1 1 1 1 3 3 0 0 (fun _ => 7)).ws))
             else 7))
        ∧ (removeWatermarkWithAlphaMap (fun _ => 7) (fun _ => 1) 1 1 1 1 3 3
            (4*((1+0)*3+(1+0))+1)
          = (if 0 < (specSearch (fun _ => 1) 1 1 1 1 3 3 0 0 (fun _ => 7)).ws
             then clampByte (round ((specSearch (fun _ => 1) 1 1 1 1 3 3 0 0 (fun _ => 7)).gs
               / (specSearch (fun _ => 1) 1 1 1 1 3 3 0 0 (fun _ => 7)).ws))
             else 7))
        ∧ (removeWatermarkWithAlphaMap (fun _ => 7) (fun _ => 1) 1 1 1 1 3 3
            (4*((1+0)*3+(1+0))+2)
          = (if 0 < (specSearch (fun _ => 1) 1 1 1 1 3 3 0 0 (fun _ => 7)).ws
             then clampByte (round ((specSearch (fun _ => 1) 1 1 1 1 3 3 0 0 (fun _ => 7)).bs
               / (specSearch (fun _ => 1) 1 1 1 1 3 3 0 0 (fun _ => 7)).ws))
             else 7)))
    ∧ (¬ maskOf (fun _ => 1) (0 * 1 + 0) = true → ∀ ch, ch < 3 →
        removeWatermarkWithAlphaMap (fun _ => 7) (fun _ => 1) 1 1 1 1 3 3
          (4*((1+0)*3+(1+0))+ch) = 7) :=
  C1_neighbor_sampling_reconstructor (fun _ => 7) (fun _ => 1) 1 1 1 1 3 3 0 0 0
    (by norm_num) (by norm_num) (by norm_num) (by norm_num)

/-- Witness for C5: two 3×3 buffers differing exactly in the masked
pixel's red byte (index 16). -/
theorem C5_masked_noninterference_witness :
    (∀ radius : ℕ, ∀ pr : ℤ × ℤ, ∀ p : ℕ, ∀ dsq : ℤ,
        sampleSpot (fun _ => 1) 1 1 1 1 3 3 0 0 radius pr = some (p, dsq) →
        ∀ ch, ch < 3 → ¬ maskedIdx (fun _ => 1) 1 1 1 1 3 (4*p+ch))
    ∧ pixelSearch (fun _ => 1) 1 1 1 1 3 3 0 0 (fun idx => if idx = 16 then 9 else 7)
        = pixelSearch (fun _ => 1) 1 1 1 1 3 3 0 0 (fun _ => 7)
    ∧ (0 < (pixelSearch (fun _ => 1) 1 1 1 1 3 3 0 0
          (fun idx => if idx = 16 then 9 else 7)).ws → ∀ ch, ch < 3 →
        removeWatermarkWithAlphaMap (fun idx => if idx = 16 then 9 else 7)
            (fun _ => 1) 1 1 1 1 3 3 (4*((1+0)*3+(1+0))+ch)
          = removeWatermarkWithAlphaMap (fun _ => 7) (fun _ => 1) 1 1 1 1 3 3
            (4*((1+0)*3+(1+0))+ch)) :=
  C5_masked_noninterference (fun idx => if idx = 16 then 9 else 7) (fun _ => 7)
    (fun _ => 1) 1 1 1 1 3 3 0 0 (by norm_num) (by norm_num) (by norm_num)
    (by norm_num) (by norm_num [maskOf])
    (fun idx hnm => by
      by_cases hidx : idx = 16
      · exact absurd ⟨0, 0, 0, by norm_num, by norm_num, by norm_num,
          by norm_num [maskOf], by omega⟩ hnm
      · simp [hidx])

/-- Witness for C10 at the same concrete configuration. -/
theorem C10_weight_positivity_witness :
    (∀ radius : ℕ, 1 ≤ radius → ∀ pr : ℤ × ℤ, ∀ p : ℕ, ∀ dsq : ℤ,
        sampleSpot (fun _ => 1) 1 1 1 1 3 3 0 0 radius pr = some (p, dsq) →
        1 ≤ dsq ∧ 0 < 1/(dsq:ℚ) ∧ 1/(dsq:ℚ) ≤ 1)
    ∧ 0 ≤ (pixelSearch (fun _ => 1) 1 1 1 1 3 3 0 0 (fun _ => 7)).ws
    ∧ pixelStep (fun _ => 1) 1 1 1 1 3 3 (fun _ => 7) (0, 0)
        = (if 0 < (pixelSearch (fun _ => 1) 1 1 1 1 3 3 0 0 (fun _ => 7)).ws
           then writePixel (fun _ => 7) (4*((1+0)*3+(1+0)))
             (pixelSearch (fun _ => 1) 1 1 1 1 3 3 0 0 (fun _ => 7))
           else (fun _ => 7)) :=
  C10_weight_positivity (fun _ => 7) (fun _ => 1) 1 1 1 1 3 3 0 0 (by norm_num)
    (by norm_num) (by norm_num [maskOf])

end WatermarkVerify
